import Mathlib

/-!
Adaptive quiz: question selection and threshold progression.

A shallow embedding of the adaptive core of the quiz client
(`js/engine.js`, `js/session.js`) together with the properties of its
selector, its progression rule and its session controller.

Conventions of the embedding:

* JavaScript numbers that hold abilities and random draws are rationals
  (`ℚ`); every ability the program computes is a multiple of `1/2`, so no
  rounding is involved.  `Math.random()` is an explicit argument.
* The one product of the program that binary64 arithmetic rounds,
  `Math.random() * m` for an array length `m`, is rounded to the nearest
  binary64 number, ties to even (`round64`).
* `Date.now().toString()` and `new Date().toISOString()` are supplied by a
  `Clock` argument.
* A JavaScript `Set` of identifiers is a list used only through membership,
  insertion and clearing.
* `Array.prototype.sort` is the stable sort by the comparator where the
  comparator is a consistent one; where it returns `NaN` the order is the one
  the engine's routine leaves, an argument of the legacy selector.
* `null` / a missing property is `Option.none`.
* An awaited storage operation is an argument telling whether it resolved
  (and with what) or rejected; the calls of one controller function run
  without interleaving.
-/

namespace AdaptiveQuiz

/-! ## Data model -/

/-- A question of the catalogue, as stored in the `questions` table. -/
structure Question where
  id : String
  subject : String
  difficulty : String
  text : String
  options : List (String × String)
  correctAnswer : String
  deriving DecidableEq, Repr

/-- The record `submitAnswer` builds for one answered or skipped question. -/
structure Attempt where
  id : String
  sessionId : String
  questionId : String
  selectedOption : Option String
  isCorrect : Bool
  difficulty : String
  timestamp : String
  abilityAfter : ℚ
  deriving DecidableEq, Repr

/-- The object `currentSession` of `js/session.js`.  The properties
`currentQuestion` and `endedAt` are absent from the literal `startQuiz`
builds and are set later. -/
structure Session where
  id : String
  subject : String
  startedAt : String
  ability : ℚ
  score : Nat
  totalQuestions : Nat
  history : List Attempt
  correctStreakAtCurrentLevel : Nat
  thresholdToNextLevel : ℤ
  currentQuestion : Option Question
  endedAt : Option String
  deriving DecidableEq, Repr

/-- The two readings of the clock a call makes: `Date.now().toString()` and
`new Date().toISOString()`. -/
structure Clock where
  now : String
  iso : String
  deriving DecidableEq, Repr

/-- What a controller function does to its collaborators, in order. -/
inductive Effect where
  | alert (message : String)
  | consoleError (message : String)
  | showSection (sectionName : String)
  | renderQuestion (question : Question) (index total : Nat)
  | updateAnalytics
  | highlightAnswers (selectedOption : Option String) (correctAnswer : String)
  | showResults (session : Session)
  | setTimeoutNextQuestion (delay : Nat)
  | rejected (functionName : String)
  deriving DecidableEq, Repr

/-- The module state of `js/session.js` (`allQuestions`, `currentSession`,
`currentSessionAnsweredIds`, `pastAnsweredIds`) together with what the module
has done to its collaborators: the records `saveAttempt` and `saveSession`
stored, and the log of the other effects. -/
structure Controller where
  allQuestions : List Question
  currentSession : Option Session
  currentSessionAnsweredIds : List String
  pastAnsweredIds : List String
  savedAttempts : List Attempt
  savedSessions : List Session
  effects : List Effect
  deriving DecidableEq, Repr

/-- The table `DIFFICULTY_MAP` of `engine.js`; a label outside the table has
no rank. -/
def DIFFICULTY_MAP (label : String) : Option Nat :=
  if label = "easy" then some 1
  else if label = "medium" then some 2
  else if label = "hard" then some 3
  else none

/-- The array `difficultyOrder` local to `selectNextQuestion`. -/
def difficultyOrder : List String := ["easy", "medium", "hard"]

/-! ## `js/engine.js` -/

/-- Step 4 of `selectNextQuestion`: the label targeted at an ability. -/
def targetDifficulty (currentAbility : ℚ) : String :=
  if currentAbility < 3 / 2 then "easy"
  else if currentAbility < 5 / 2 then "medium"
  else "hard"

/-- The filter `pool.filter(q => q.difficulty === difficultyOrder[i])`; an
index outside the array compares every difficulty with `undefined`. -/
def filterAt (pool : List Question) (i : Nat) : List Question :=
  pool.filter (fun q => decide (difficultyOrder[i]? = some q.difficulty))

/-- One of the two `for` loops of step 6: the indices still to visit, and the
value `targetPool` holds.  Each round overwrites `targetPool` with the filter
at the index and leaves the loop when that filter is non-empty. -/
def scanLoop (pool : List Question) : List Nat → List Question → List Question
  | [], targetPool => targetPool
  | i :: rest, _ =>
    let targetPool := filterAt pool i
    if targetPool.length > 0 then targetPool else scanLoop pool rest targetPool

/-- The call `difficultyOrder.indexOf(label)`: the position of the label in
the array, `-1` when the label is not in it. -/
def indexOfLabel (label : String) : ℤ :=
  if label ∈ difficultyOrder then (difficultyOrder.indexOf label : ℤ) else -1

/-- The values `i` takes in the upward loop, from `currentIndex + 1` while
`i < difficultyOrder.length`. -/
def upwardIndices (currentIndex : ℤ) : List Nat :=
  List.range' (currentIndex + 1).toNat (difficultyOrder.length - (currentIndex + 1).toNat)

/-- The values `i` takes in the downward loop, from `currentIndex - 1` while
`i >= 0`. -/
def downwardIndices (currentIndex : ℤ) : List Nat :=
  (List.range currentIndex.toNat).reverse

/-- The rank of a label in the order easy, medium, hard: its position in
`difficultyOrder`. -/
def rankOf (label : String) : Nat := difficultyOrder.indexOf label

/-- Steps 5 and 6 of `selectNextQuestion`: the pool the random pick is made
from, given the chosen partition `pool` and the target label. -/
def targetPoolOf (pool : List Question) (target : String) : List Question :=
  let targetPool := pool.filter (fun q => decide (q.difficulty = target))
  if targetPool.length = 0 then
    let currentIndex := indexOfLabel target
    let targetPool := scanLoop pool (upwardIndices currentIndex) targetPool
    let targetPool :=
      if targetPool.length = 0 then
        scanLoop pool (downwardIndices currentIndex) targetPool
      else targetPool
    if targetPool.length = 0 then pool else targetPool
  else targetPool

/-- Step 1: the candidates not answered in the current session. -/
def availableOf (candidateQuestions : List Question)
    (currentSessionAnsweredIds : List String) : List Question :=
  candidateQuestions.filter (fun q => !decide (q.id ∈ currentSessionAnsweredIds))

/-- Steps 2 and 3: the new questions when there is one, else the old ones. -/
def partitionOf (available : List Question) (pastAnsweredIds : List String) :
    List Question :=
  let newQuestions := available.filter (fun q => !decide (q.id ∈ pastAnsweredIds))
  let oldQuestions := available.filter (fun q => decide (q.id ∈ pastAnsweredIds))
  if newQuestions.length > 0 then newQuestions else oldQuestions

/-- The pool `targetPool` at step 7, for a call that got past step 1. -/
def workingPool (candidateQuestions : List Question)
    (currentSessionAnsweredIds : List String) (currentAbility : ℚ)
    (pastAnsweredIds : List String) : List Question :=
  targetPoolOf
    (partitionOf (availableOf candidateQuestions currentSessionAnsweredIds) pastAnsweredIds)
    (targetDifficulty currentAbility)

/-- Rounding of a rational to the nearest integer, a tie going to the even
one. -/
def roundHalfEven (q : ℚ) : ℤ :=
  let f := ⌊q⌋
  if q - f < 1 / 2 then f
  else if 1 / 2 < q - f then f + 1
  else if f % 2 = 0 then f else f + 1

/-- The spacing of the binary64 numbers around `x`: `2 ^ (e - 52)` with `e` the
exponent of `x`, not below the least exponent `-1022` of a normal number. -/
def ulp64 (x : ℚ) : ℚ := (2 : ℚ) ^ (max (Int.log 2 |x|) (-1022) - 52)

/-- The binary64 number nearest to `x`, ties to even: the value binary64
arithmetic gives for an operation whose exact result is `x` (below the
overflow threshold, which no number of this program comes near). -/
def round64 (x : ℚ) : ℚ := (roundHalfEven (x / ulp64 x) : ℚ) * ulp64 x

/-- The binary64 number at or next below a non-negative `x`. -/
def floor64 (x : ℚ) : ℚ := (⌊x / ulp64 x⌋ : ℚ) * ulp64 x

/-- The rational `x` is a binary64 number. -/
def IsBinary64 (x : ℚ) : Prop := round64 x = x

instance (x : ℚ) : Decidable (IsBinary64 x) := by
  unfold IsBinary64
  infer_instance

/-- The value `Math.floor(Math.random() * m)` for an array length `m`.  What
`Math.random()` returns is a binary64 number of `[0, 1)`: the argument `random`
stands for the number `floor64 random`, which is `random` itself when it is a
binary64 number.  The product is the binary64 product. -/
def floorOfProduct (random : ℚ) (m : Nat) : ℤ :=
  ⌊round64 (floor64 random * (m : ℚ))⌋

/-- The index `Math.floor(Math.random() * Math.min(5, n))`. -/
def randomIndex (random : ℚ) (n : Nat) : ℤ :=
  floorOfProduct random (min 5 n)

/-- Array indexing `xs[i]` by an integer-valued number: `undefined` (here
`none`) outside the array. -/
def arrayAt (xs : List Question) : ℤ → Option Question
  | Int.ofNat k => xs[k]?
  | Int.negSucc _ => none

/-- `selectNextQuestion` of `js/engine.js`; `random` is the value
`Math.random()` returns at step 7. -/
def selectNextQuestion (candidateQuestions : List Question)
    (currentSessionAnsweredIds : List String) (currentAbility : ℚ)
    (pastAnsweredIds : List String) (random : ℚ) : Option Question :=
  let available := availableOf candidateQuestions currentSessionAnsweredIds
  if available.length = 0 then none
  else
    let pool := partitionOf available pastAnsweredIds
    let targetPool := targetPoolOf pool (targetDifficulty currentAbility)
    arrayAt targetPool (randomIndex random targetPool.length)

/-- `calculateNewAbility` of `js/engine.js`. -/
def calculateNewAbility (currentAbility : ℚ) (isCorrect : Bool)
    (_questionDifficulty : String) : ℚ :=
  let step : ℚ := 1 / 2
  let newAbility := if isCorrect then currentAbility + step else currentAbility
  max 1 (min 3 newAbility)

/-! ## `js/session.js` -/

/-- The constant `MAX_QUESTIONS`. -/
def MAX_QUESTIONS : Nat := 10

/-- The draw `Math.floor(Math.random() * 2) + 2` of a threshold. -/
def drawThreshold (random : ℚ) : ℤ := ⌊random * 2⌋ + 2

/-- `Set.prototype.add` on a set of identifiers. -/
def setAdd (ids : List String) (id : String) : List String :=
  if id ∈ ids then ids else ids ++ [id]

/-- The module state when `js/session.js` has just been loaded. -/
def Controller.initial : Controller :=
  { allQuestions := [], currentSession := none, currentSessionAnsweredIds := [],
    pastAnsweredIds := [], savedAttempts := [], savedSessions := [], effects := [] }

/-- `endQuiz` of `js/session.js`.  `saveOk` tells whether the awaited
`saveSession` resolves; when it rejects the function stops there and its
promise rejects. -/
def endQuiz (c : Controller) (redirect : Bool) (clock : Clock) (saveOk : Bool) :
    Controller :=
  match c.currentSession with
  | none => c
  | some s =>
    let s := { s with endedAt := some clock.iso }
    if saveOk then
      { c with
        savedSessions := c.savedSessions ++ [s]
        effects := c.effects ++
          [if redirect then Effect.showSection "courses" else Effect.showResults s]
        currentSession := none }
    else
      { c with
        currentSession := some s
        effects := c.effects ++ [Effect.rejected "endQuiz"] }

/-- `nextQuestion` of `js/session.js`; `random` is the draw the selector
makes, `clock` and `saveOk` are passed on to `endQuiz`. -/
def nextQuestion (c : Controller) (clock : Clock) (random : ℚ) (saveOk : Bool) :
    Controller :=
  match c.currentSession with
  | none => c
  | some s =>
    if s.totalQuestions ≥ MAX_QUESTIONS then endQuiz c false clock saveOk
    else
      match selectNextQuestion c.allQuestions c.currentSessionAnsweredIds s.ability
          c.pastAnsweredIds random with
      | none => endQuiz c false clock saveOk
      | some question =>
        { c with
          currentSession := some { s with currentQuestion := some question }
          effects := c.effects ++
            [Effect.renderQuestion question (s.totalQuestions + 1) MAX_QUESTIONS] }

/-- `submitAnswer` of `js/session.js`; `random` is the draw of the new
threshold, `saveOk` tells whether the `saveAttempt` that is started and not
awaited stores its record. -/
def submitAnswer (c : Controller) (selectedOption : Option String) (clock : Clock)
    (random : ℚ) (saveOk : Bool) : Controller :=
  match c.currentSession with
  | none => c
  | some s =>
    match s.currentQuestion with
    | none => c
    | some question =>
      let isCorrect := decide (selectedOption = some question.correctAnswer)
      let s := { s with totalQuestions := s.totalQuestions + 1 }
      let s := if isCorrect then { s with score := s.score + 1 } else s
      let oldAbility := s.ability
      let s :=
        if isCorrect then
          let s := { s with correctStreakAtCurrentLevel := s.correctStreakAtCurrentLevel + 1 }
          if (s.correctStreakAtCurrentLevel : ℤ) ≥ s.thresholdToNextLevel then
            { s with
              ability := calculateNewAbility oldAbility true question.difficulty
              correctStreakAtCurrentLevel := 0
              thresholdToNextLevel := drawThreshold random }
          else s
        else { s with correctStreakAtCurrentLevel := 0 }
      let attempt : Attempt :=
        { id := clock.now
          sessionId := s.id
          questionId := question.id
          selectedOption := selectedOption
          isCorrect := isCorrect
          difficulty := question.difficulty
          timestamp := clock.iso
          abilityAfter := s.ability }
      let s := { s with history := s.history ++ [attempt] }
      { c with
        currentSessionAnsweredIds := setAdd c.currentSessionAnsweredIds question.id
        currentSession := some s
        savedAttempts := if saveOk then c.savedAttempts ++ [attempt] else c.savedAttempts
        effects := c.effects ++
          [Effect.updateAnalytics,
           Effect.highlightAnswers selectedOption question.correctAnswer,
           Effect.setTimeoutNextQuestion 2000] }

/-- The `catch` block of `startQuiz`. -/
def startQuizCatch (c : Controller) (err : String) : Controller :=
  { c with
    effects := c.effects ++
      [Effect.consoleError ("Failed to start quiz: " ++ err),
       Effect.alert "Error starting quiz."] }

/-- `startQuiz` of `js/session.js`.  `questions` and `attempts` are the
outcomes of the awaited `getQuestionsBySubject` and `getAllAttempts`
(`Except.error` when the promise rejects); `randomThreshold` is the draw of
the first threshold, `randomSelect` and `saveOk` are used by the
`nextQuestion` it calls. -/
def startQuiz (c : Controller) (subject : String)
    (questions : Except String (List Question)) (attempts : Except String (List Attempt))
    (clock : Clock) (randomThreshold randomSelect : ℚ) (saveOk : Bool) : Controller :=
  match questions with
  | Except.error err => startQuizCatch c err
  | Except.ok qs =>
    let c := { c with allQuestions := qs }
    if qs.length = 0 then
      { c with effects := c.effects ++ [Effect.alert "No questions found for this subject."] }
    else
      let c := { c with
        currentSession := some
          { id := clock.now
            subject := subject
            startedAt := clock.iso
            ability := 1
            score := 0
            totalQuestions := 0
            history := []
            correctStreakAtCurrentLevel := 0
            thresholdToNextLevel := drawThreshold randomThreshold
            currentQuestion := none
            endedAt := none } }
      match attempts with
      | Except.error err => startQuizCatch c err
      | Except.ok allAttempts =>
        let c := { c with pastAnsweredIds := allAttempts.map (fun (a : Attempt) => a.questionId) }
        let c := { c with currentSessionAnsweredIds := [] }
        let c := { c with effects := c.effects ++ [Effect.showSection "quiz-area"] }
        let c := nextQuestion c clock randomSelect saveOk
        { c with effects := c.effects ++ [Effect.updateAnalytics] }

/-- One call from the host page into the module, with what the environment
supplies to it. -/
inductive Call where
  | startQuiz (subject : String) (questions : Except String (List Question))
      (attempts : Except String (List Attempt)) (clock : Clock)
      (randomThreshold randomSelect : ℚ) (saveOk : Bool)
  | nextQuestion (clock : Clock) (random : ℚ) (saveOk : Bool)
  | submitAnswer (selectedOption : Option String) (clock : Clock) (random : ℚ)
      (saveOk : Bool)
  | endQuiz (redirect : Bool) (clock : Clock) (saveOk : Bool)

/-- The module state after one call. -/
def Controller.step (c : Controller) : Call → Controller
  | Call.startQuiz subject questions attempts clock rt rs ok =>
    startQuiz c subject questions attempts clock rt rs ok
  | Call.nextQuestion clock random ok => nextQuestion c clock random ok
  | Call.submitAnswer sel clock random ok => submitAnswer c sel clock random ok
  | Call.endQuiz redirect clock ok => endQuiz c redirect clock ok

/-- The module state after a sequence of calls, made one after the other. -/
def Controller.run (c : Controller) (calls : List Call) : Controller :=
  calls.foldl Controller.step c

/-! ## A small catalogue for concrete runs -/

/-- An easy question of the subject `Math`. -/
def sampleEasy : Question :=
  ⟨"q1", "Math", "easy", "1+1?", [("A", "2"), ("B", "3")], "A"⟩

/-- A medium question of the subject `Math`. -/
def sampleMedium : Question :=
  ⟨"q2", "Math", "medium", "12*12?", [("A", "124"), ("B", "144")], "B"⟩

/-- A hard question of the subject `Math`. -/
def sampleHard : Question :=
  ⟨"q3", "Math", "hard", "17*23?", [("A", "391"), ("B", "401")], "A"⟩

/-- An easy question of the subject `Math` with the given identifier. -/
def easyQuestion (id : String) : Question :=
  ⟨id, "Math", "easy", "1+1?", [("A", "2"), ("B", "3")], "A"⟩

/-- A catalogue of six easy questions. -/
def sixEasy : List Question :=
  [easyQuestion "e1", easyQuestion "e2", easyQuestion "e3", easyQuestion "e4",
   easyQuestion "e5", easyQuestion "e6"]

/-- A medium question of the subject `Math` with the given identifier. -/
def mediumQuestion (id : String) : Question :=
  ⟨id, "Math", "medium", "12*12?", [("A", "124"), ("B", "144")], "B"⟩

/-- A hard question of the subject `Math` with the given identifier. -/
def hardQuestion (id : String) : Question :=
  ⟨id, "Math", "hard", "17*23?", [("A", "391"), ("B", "401")], "A"⟩

/-- A catalogue of two hard, two medium and three easy questions. -/
def sevenMixed : List Question :=
  [hardQuestion "h1", mediumQuestion "m1", easyQuestion "e1", hardQuestion "h2",
   mediumQuestion "m2", easyQuestion "e2", easyQuestion "e3"]

/-- A catalogue of a hard question, a question whose difficulty `expert` is
not a key of `DIFFICULTY_MAP`, and five easy questions. -/
def offTableCatalogue : List Question :=
  [hardQuestion "h1", ⟨"x1", "Math", "expert", "0/0?", [("A", "0"), ("B", "1")], "A"⟩,
   easyQuestion "e1", easyQuestion "e2", easyQuestion "e3", easyQuestion "e4",
   easyQuestion "e5"]

/-- The binary64 number nearest to 0.6. -/
def draw06 : ℚ := 5404319552844595 / 2 ^ 53

/-- The largest binary64 number below 1. -/
def drawMax : ℚ := 1 - 1 / 2 ^ 53

/-- A reading of the clock. -/
def sampleClock : Clock := ⟨"1700000000000", "2023-11-14T22:13:20.000Z"⟩

/-- A session in the medium band with a streak of one, a threshold of three
and `sampleEasy` as its current question. -/
def sampleSession : Session :=
  { id := "1700000000000", subject := "Math", startedAt := "2023-11-14T22:13:20.000Z",
    ability := 3 / 2, score := 3, totalQuestions := 4, history := [],
    correctStreakAtCurrentLevel := 1, thresholdToNextLevel := 3,
    currentQuestion := some sampleEasy, endedAt := none }

/-- A module state whose active session is `sampleSession`. -/
def sampleController : Controller :=
  { Controller.initial with
    allQuestions := [sampleEasy, sampleMedium, sampleHard]
    currentSession := some sampleSession }

/-- A quiz on two questions: the learner picks option `A` of the first, then
presses the skip button before the two-second timer has asked for the next
question. -/
def doubleSubmitRun : List Call :=
  [Call.startQuiz "Math" (Except.ok [sampleEasy, sampleMedium]) (Except.ok []) sampleClock
      (1 / 2) (1 / 2) true,
   Call.submitAnswer (some "A") sampleClock (1 / 2) true,
   Call.submitAnswer none sampleClock (1 / 2) true]

/-- The module state after `startQuiz` on `sampleEasy` and `sampleMedium` and
one answer `A`: the first two calls of `doubleSubmitRun`. -/
def answeredOnce : Controller :=
  Controller.initial.run (doubleSubmitRun.take 2)

/-- A quiz in which the first threshold is two and the first two answers are
correct, up to the third question. -/
def sampleRun : List Call :=
  [Call.startQuiz "Math" (Except.ok [sampleEasy, sampleMedium, sampleHard]) (Except.ok [])
      sampleClock (1 / 4) (1 / 2) true,
   Call.submitAnswer (some "A") sampleClock (1 / 2) true,
   Call.nextQuestion sampleClock (1 / 2) true,
   Call.submitAnswer (some "B") sampleClock (3 / 4) true,
   Call.nextQuestion sampleClock (1 / 2) true]

/-- The question identifiers of the attempts of a session, oldest first. -/
def Session.attemptedIds (s : Session) : List String :=
  s.history.map (fun a => a.questionId)

/-- The `abilityAfter` values of the attempts of a session, oldest first. -/
def Session.abilityTrace (s : Session) : List ℚ :=
  s.history.map (fun a => a.abilityAfter)

/-- The ability facts a session keeps: the ability lies in `[1, 3]`, the
recorded `abilityAfter` values never decrease, and none exceeds the ability. -/
def Session.AbilityInv (s : Session) : Prop :=
  1 ≤ s.ability ∧ s.ability ≤ 3 ∧ s.abilityTrace.Pairwise (fun x y => x ≤ y) ∧
    ∀ x ∈ s.abilityTrace, x ≤ s.ability

/-- The ability facts hold of the active session, if there is one. -/
def Controller.AbilityInv (c : Controller) : Prop :=
  ∀ s, c.currentSession = some s → s.AbilityInv

/-- The identifiers recorded in the history of the active session are
pairwise distinct and all belong to `currentSessionAnsweredIds`. -/
def Controller.RecordedInv (c : Controller) : Prop :=
  ∀ s, c.currentSession = some s →
    s.attemptedIds.Nodup ∧ ∀ id ∈ s.attemptedIds, id ∈ c.currentSessionAnsweredIds

/-- `RecordedInv`, and the current question of the active session, if there
is one, has not been answered in this session. -/
def Controller.FreshInv (c : Controller) : Prop :=
  c.RecordedInv ∧
  ∀ s, c.currentSession = some s →
    ∀ q, s.currentQuestion = some q → q.id ∉ c.currentSessionAnsweredIds

/-- One round of a quiz in which the host waits for the timer: an answer, then
the `nextQuestion` of the timer, whose `endQuiz`, if it comes to that, stores
the session. -/
structure Round where
  selectedOption : Option String
  answerClock : Clock
  randomThreshold : ℚ
  saveAttemptOk : Bool
  nextClock : Clock
  randomSelect : ℚ

/-- The module state after the rounds, made one after the other. -/
def Controller.runRounds (c : Controller) (rounds : List Round) : Controller :=
  rounds.foldl
    (fun c r =>
      nextQuestion
        (submitAnswer c r.selectedOption r.answerClock r.randomThreshold r.saveAttemptOk)
        r.nextClock r.randomSelect true)
    c

/-- The draws of a call that set a threshold are values `Math.random()` can
return: they lie in `[0, 1)`. -/
def Call.ValidDraws : Call → Prop
  | Call.startQuiz _ _ _ _ randomThreshold _ _ => 0 ≤ randomThreshold ∧ randomThreshold < 1
  | Call.submitAnswer _ _ random _ => 0 ≤ random ∧ random < 1
  | Call.nextQuestion _ _ _ => True
  | Call.endQuiz _ _ _ => True

/-- The threshold facts a session keeps: the threshold is 2 or 3 and the
streak is below it. -/
def Session.StreakInv (s : Session) : Prop :=
  (s.thresholdToNextLevel = 2 ∨ s.thresholdToNextLevel = 3) ∧
    (s.correctStreakAtCurrentLevel : ℤ) < s.thresholdToNextLevel

/-- The pace facts a session keeps: the history has one attempt per counted
answer, and the ability is `1 + k / 2` for a number `k ≤ 4` of half steps
each of which has cost two answers, the running streak not counted. -/
def Session.PaceInv (s : Session) : Prop :=
  s.history.length = s.totalQuestions ∧
    ∃ k : Nat, s.ability = 1 + (k : ℚ) / 2 ∧ k ≤ 4 ∧
      2 * k + s.correctStreakAtCurrentLevel ≤ s.totalQuestions

/-- The threshold and pace facts hold of the active session, if there is one. -/
def Controller.PaceInv (c : Controller) : Prop :=
  ∀ s, c.currentSession = some s → s.StreakInv ∧ s.PaceInv

/-- A quiz on four questions in which both thresholds drawn are two and the
first three answers are correct, up to the fourth question. -/
def bandRun : List Call :=
  [Call.startQuiz "Math"
      (Except.ok [sampleEasy, sampleMedium, sampleHard,
        ⟨"q4", "Math", "medium", "9*9?", [("A", "81"), ("B", "99")], "A"⟩])
      (Except.ok []) sampleClock (1 / 4) (1 / 4) true,
   Call.submitAnswer (some "A") sampleClock (1 / 4) true,
   Call.nextQuestion sampleClock (1 / 4) true,
   Call.submitAnswer (some "B") sampleClock (1 / 4) true,
   Call.nextQuestion sampleClock (1 / 4) true,
   Call.submitAnswer (some "A") sampleClock (1 / 4) true,
   Call.nextQuestion sampleClock (1 / 4) true]

end AdaptiveQuiz

namespace AdaptiveQuiz.Legacy

/-! ## The legacy variant: `engine.js` -/

/-- The comparator `pool.sort` is given.  `none` is `NaN`, which the
arithmetic yields as soon as one of the two difficulties is not a key of
`DIFFICULTY_MAP`. -/
def compareQuestions (currentAbility : ℚ) (a b : Question) : Option ℚ :=
  match DIFFICULTY_MAP a.difficulty, DIFFICULTY_MAP b.difficulty with
  | some rankA, some rankB =>
    let diffA := |(rankA : ℚ) - currentAbility|
    let diffB := |(rankB : ℚ) - currentAbility|
    if diffA ≠ diffB then some (diffA - diffB) else some ((rankA : ℚ) - (rankB : ℚ))
  | _, _ => none

/-- The order `Array.prototype.sort` reads off the comparator: `a` need not
come after `b` when the comparator does not return a positive number (`NaN`
counts as zero). -/
def sortsBefore (currentAbility : ℚ) (a b : Question) : Prop :=
  match compareQuestions currentAbility a b with
  | some v => v ≤ 0
  | none => True

instance (currentAbility : ℚ) : DecidableRel (sortsBefore currentAbility) := fun a b => by
  unfold sortsBefore
  cases compareQuestions currentAbility a b <;> infer_instance

/-- The sort routine of the JavaScript engine, for the arrays on which the
language leaves the order to the engine: from the comparator and the array to
the array as the routine leaves it. -/
abbrev EngineSort : Type := (Question → Question → Option ℚ) → List Question → List Question

/-- The call `pool.sort(compare)`.  When every difficulty is a key of
`DIFFICULTY_MAP` the comparator is a consistent one and the language fixes the
result: the stable sort by the comparator.  When some difficulty is not, the
comparator returns `NaN` and the order is the one the engine's routine leaves,
here `engineSort`. -/
def sortPool (engineSort : EngineSort) (currentAbility : ℚ) (pool : List Question) :
    List Question :=
  if pool.all (fun q => (DIFFICULTY_MAP q.difficulty).isSome) then
    pool.insertionSort (sortsBefore currentAbility)
  else engineSort (compareQuestions currentAbility) pool

/-- An engine routine on the arrays it finds in order: it returns the array as
it is.  This is what the routine of V8 does with an array in which, read from
the left, no element compares below the one before it (`NaN` counting as 0):
the whole array is one ascending run. -/
def keepsOrder : EngineSort := fun _ pool => pool

/-- `selectNextQuestion` of the legacy `engine.js`; `random` is the value
`Math.random()` returns.  The constant `bestDiff` the function computes and
never reads is left out. -/
def selectNextQuestion (engineSort : EngineSort) (candidateQuestions : List Question)
    (currentSessionAnsweredIds : List String) (currentAbility : ℚ)
    (pastAnsweredIds : List String) (random : ℚ) : Option Question :=
  let available := availableOf candidateQuestions currentSessionAnsweredIds
  if available.length = 0 then none
  else
    let pool := partitionOf available pastAnsweredIds
    let pool := sortPool engineSort currentAbility pool
    let topCandidates := pool.take 5
    let randomIndex := floorOfProduct random topCandidates.length
    arrayAt topCandidates randomIndex

/-- `calculateNewAbility` of the legacy `engine.js`. -/
def calculateNewAbility (currentAbility : ℚ) (isCorrect : Bool)
    (_questionDifficulty : String) : ℚ :=
  let step : ℚ := 1 / 2
  let newAbility := if isCorrect then currentAbility + step else currentAbility - step
  max 1 (min 3 newAbility)

/-- The order of the claim about the legacy selector, in its words: `q` is
strictly better than `r` at an ability when its rank is strictly closer to the
ability, or as close and strictly lower. -/
def strictlyBetter (currentAbility : ℚ) (q r : Question) : Prop :=
  match DIFFICULTY_MAP q.difficulty, DIFFICULTY_MAP r.difficulty with
  | some rankQ, some rankR =>
    |(rankQ : ℚ) - currentAbility| < |(rankR : ℚ) - currentAbility| ∨
      (|(rankQ : ℚ) - currentAbility| = |(rankR : ℚ) - currentAbility| ∧ rankQ < rankR)
  | _, _ => False

instance (currentAbility : ℚ) : DecidableRel (strictlyBetter currentAbility) := fun q r => by
  unfold strictlyBetter
  cases DIFFICULTY_MAP q.difficulty <;> cases DIFFICULTY_MAP r.difficulty <;> infer_instance

/-- The key the comparator sorts by: the distance of the rank to the ability,
then the rank (a difficulty outside `DIFFICULTY_MAP` is given rank 0 here). -/
def sortKey (currentAbility : ℚ) (q : Question) : ℚ ×ₗ ℚ :=
  toLex (|(((DIFFICULTY_MAP q.difficulty).getD 0 : Nat) : ℚ) - currentAbility|,
    (((DIFFICULTY_MAP q.difficulty).getD 0 : Nat) : ℚ))

/-! ## The legacy variant: `session.js` -/

/-- The object `currentSession` of the legacy `session.js`. -/
structure Session where
  id : String
  subject : String
  startedAt : String
  ability : ℚ
  score : Nat
  totalQuestions : Nat
  history : List Attempt
  currentQuestion : Option Question
  endedAt : Option String
  deriving DecidableEq, Repr

/-- What a function of the legacy `session.js` does to its collaborators. -/
inductive Effect where
  | alert (message : String)
  | consoleError (message : String)
  | showSection (sectionName : String)
  | renderQuestion (question : Question) (index : Nat)
  | updateAnalytics
  | highlightAnswers (selectedOption : Option String) (correctAnswer : String)
  | showResults (session : Session)
  | setTimeoutNextQuestion (delay : Nat)
  | rejected (functionName : String)
  deriving DecidableEq, Repr

/-- The module state of the legacy `session.js` and what the module has done
to its collaborators. -/
structure Controller where
  allQuestions : List Question
  currentSession : Option Session
  currentSessionAnsweredIds : List String
  pastAnsweredIds : List String
  savedAttempts : List Attempt
  savedSessions : List Session
  effects : List Effect
  deriving DecidableEq, Repr

/-- `endQuiz` of the legacy `session.js`. -/
def endQuiz (c : Controller) (redirect : Bool) (clock : Clock) (saveOk : Bool) :
    Controller :=
  match c.currentSession with
  | none => c
  | some s =>
    let s := { s with endedAt := some clock.iso }
    if saveOk then
      { c with
        savedSessions := c.savedSessions ++ [s]
        effects := c.effects ++
          [if redirect then Effect.showSection "courses" else Effect.showResults s]
        currentSession := none }
    else
      { c with
        currentSession := some s
        effects := c.effects ++ [Effect.rejected "endQuiz"] }

/-- `nextQuestion` of the legacy `session.js`; `engineSort` is the sort
routine of the engine the selector runs on. -/
def nextQuestion (engineSort : EngineSort) (c : Controller) (clock : Clock) (random : ℚ)
    (saveOk : Bool) : Controller :=
  match c.currentSession with
  | none => c
  | some s =>
    if s.totalQuestions ≥ 10 then endQuiz c false clock saveOk
    else
      match selectNextQuestion engineSort c.allQuestions c.currentSessionAnsweredIds s.ability
          c.pastAnsweredIds random with
      | none => endQuiz c false clock saveOk
      | some question =>
        { c with
          currentSession := some { s with currentQuestion := some question }
          effects := c.effects ++ [Effect.renderQuestion question (s.totalQuestions + 1)] }

/-- `submitAnswer` of the legacy `session.js`. -/
def submitAnswer (c : Controller) (selectedOption : Option String) (clock : Clock)
    (saveOk : Bool) : Controller :=
  match c.currentSession with
  | none => c
  | some s =>
    match s.currentQuestion with
    | none => c
    | some question =>
      let isCorrect := decide (selectedOption = some question.correctAnswer)
      let s := { s with totalQuestions := s.totalQuestions + 1 }
      let s := if isCorrect then { s with score := s.score + 1 } else s
      let oldAbility := s.ability
      let s := { s with ability := calculateNewAbility oldAbility isCorrect question.difficulty }
      let attempt : Attempt :=
        { id := clock.now
          sessionId := s.id
          questionId := question.id
          selectedOption := selectedOption
          isCorrect := isCorrect
          difficulty := question.difficulty
          timestamp := clock.iso
          abilityAfter := s.ability }
      let s := { s with history := s.history ++ [attempt] }
      { c with
        currentSessionAnsweredIds := setAdd c.currentSessionAnsweredIds question.id
        currentSession := some s
        savedAttempts := if saveOk then c.savedAttempts ++ [attempt] else c.savedAttempts
        effects := c.effects ++
          [Effect.updateAnalytics,
           Effect.highlightAnswers selectedOption question.correctAnswer,
           Effect.setTimeoutNextQuestion 2000] }

/-- The `catch` block of the legacy `startQuiz`. -/
def startQuizCatch (c : Controller) (err : String) : Controller :=
  { c with
    effects := c.effects ++
      [Effect.consoleError ("Failed to start quiz: " ++ err),
       Effect.alert "Error starting quiz."] }

/-- `startQuiz` of the legacy `session.js`; `engineSort` is the sort routine
of the engine the selector runs on. -/
def startQuiz (engineSort : EngineSort) (c : Controller) (subject : String)
    (questions : Except String (List Question)) (attempts : Except String (List Attempt))
    (clock : Clock) (randomSelect : ℚ) (saveOk : Bool) : Controller :=
  match questions with
  | Except.error err => startQuizCatch c err
  | Except.ok qs =>
    let c := { c with allQuestions := qs }
    if qs.length = 0 then
      { c with effects := c.effects ++ [Effect.alert "No questions found for this subject."] }
    else
      let c := { c with
        currentSession := some
          { id := clock.now
            subject := subject
            startedAt := clock.iso
            ability := 1
            score := 0
            totalQuestions := 0
            history := []
            currentQuestion := none
            endedAt := none } }
      match attempts with
      | Except.error err => startQuizCatch c err
      | Except.ok allAttempts =>
        let c := { c with pastAnsweredIds := allAttempts.map (fun (a : Attempt) => a.questionId) }
        let c := { c with currentSessionAnsweredIds := [] }
        let c := { c with effects := c.effects ++ [Effect.showSection "quiz-area"] }
        let c := nextQuestion engineSort c clock randomSelect saveOk
        { c with effects := c.effects ++ [Effect.updateAnalytics] }

/-- The module state when the legacy `session.js` has just been loaded. -/
def Controller.initial : Controller :=
  { allQuestions := [], currentSession := none, currentSessionAnsweredIds := [],
    pastAnsweredIds := [], savedAttempts := [], savedSessions := [], effects := [] }

/-- A legacy session with `sampleEasy` as its current question. -/
def sampleSession : Session :=
  { id := "1700000000000", subject := "Math", startedAt := "2023-11-14T22:13:20.000Z",
    ability := 3 / 2, score := 3, totalQuestions := 4, history := [],
    currentQuestion := some sampleEasy, endedAt := none }

/-- The legacy module state after `startQuiz` on `sampleEasy` and
`sampleMedium`, with no past attempts and the draw 0, and one answer `A`. -/
def answeredOnce : Controller :=
  submitAnswer
    (startQuiz keepsOrder Controller.initial "Math" (Except.ok [sampleEasy, sampleMedium])
      (Except.ok []) sampleClock 0 true)
    (some "A") sampleClock true

/-- A legacy module state whose active session is `sampleSession`. -/
def sampleController : Controller :=
  { Controller.initial with
    allQuestions := [sampleEasy, sampleMedium, sampleHard]
    currentSession := some sampleSession }

end AdaptiveQuiz.Legacy

namespace AdaptiveQuiz

/-! ## Lemmas about the selector -/

theorem mem_availableOf {cands : List Question} {excl : List String} {q : Question} :
    q ∈ availableOf cands excl ↔ q ∈ cands ∧ q.id ∉ excl := by
  simp [availableOf]

theorem availableOf_eq_nil {cands : List Question} {excl : List String} :
    availableOf cands excl = [] ↔ ∀ q ∈ cands, q.id ∈ excl := by
  simp [availableOf, List.filter_eq_nil_iff]

theorem partitionOf_subset {avail : List Question} {past : List String} {q : Question}
    (h : q ∈ partitionOf avail past) : q ∈ avail := by
  unfold partitionOf at h
  dsimp only at h
  split at h <;> exact (List.mem_filter.mp h).1

theorem partitionOf_ne_nil {avail : List Question} {past : List String}
    (h : avail ≠ []) : partitionOf avail past ≠ [] := by
  unfold partitionOf
  dsimp only
  obtain ⟨q, hq⟩ := List.exists_mem_of_ne_nil avail h
  split
  · next hlen => exact List.ne_nil_of_length_pos hlen
  · next hlen =>
    have hnew : avail.filter (fun q => !decide (q.id ∈ past)) = [] := by
      apply List.eq_nil_of_length_eq_zero; omega
    have hq1 : q.id ∈ past := by
      by_contra hc
      have : q ∈ avail.filter (fun q => !decide (q.id ∈ past)) :=
        List.mem_filter.mpr ⟨hq, by simpa using hc⟩
      rw [hnew] at this
      exact List.not_mem_nil _ this
    exact List.ne_nil_of_mem (List.mem_filter.mpr ⟨hq, by simpa using hq1⟩)

theorem mem_filterAt {pool : List Question} {i : Nat} {q : Question} :
    q ∈ filterAt pool i ↔ q ∈ pool ∧ difficultyOrder[i]? = some q.difficulty := by
  simp [filterAt]

/-- What a scan loop leaves in `targetPool`: the filter at the first index of
the list whose filter is non-empty, or nothing new when there is none. -/
theorem scanLoop_spec (pool : List Question) (idxs : List Nat) (tp : List Question) :
    (∃ pre i post, idxs = pre ++ i :: post ∧ (∀ j ∈ pre, filterAt pool j = []) ∧
        filterAt pool i ≠ [] ∧ scanLoop pool idxs tp = filterAt pool i) ∨
    ((∀ j ∈ idxs, filterAt pool j = []) ∧
        (scanLoop pool idxs tp = tp ∨ scanLoop pool idxs tp = [])) := by
  induction idxs generalizing tp with
  | nil => right; simp [scanLoop]
  | cons i rest ih =>
    by_cases hi : (filterAt pool i).length > 0
    · left
      refine ⟨[], i, rest, rfl, by simp, List.ne_nil_of_length_pos hi, ?_⟩
      simp [scanLoop, hi]
    · have hnil : filterAt pool i = [] := List.eq_nil_of_length_eq_zero (by omega)
      have hstep : scanLoop pool (i :: rest) tp = scanLoop pool rest (filterAt pool i) := by
        simp [scanLoop, hnil]
      rcases ih (filterAt pool i) with ⟨pre, k, post, he, hpre, hk, hres⟩ | ⟨hall, hres⟩
      · left
        refine ⟨i :: pre, k, post, by simp [he], ?_, hk, by rw [hstep, hres]⟩
        intro j hj
        rcases List.mem_cons.mp hj with rfl | hj
        · exact hnil
        · exact hpre j hj
      · right
        refine ⟨?_, ?_⟩
        · intro j hj
          rcases List.mem_cons.mp hj with rfl | hj
          · exact hnil
          · exact hall j hj
        · right
          rw [hstep]
          rcases hres with h | h
          · rw [h, hnil]
          · exact h

theorem scanLoop_subset (pool : List Question) (idxs : List Nat) (tp : List Question)
    (htp : ∀ q ∈ tp, q ∈ pool) : ∀ q ∈ scanLoop pool idxs tp, q ∈ pool := by
  intro q h
  rcases scanLoop_spec pool idxs tp with ⟨_, i, _, _, _, _, hres⟩ | ⟨_, hres | hres⟩
  · rw [hres] at h; exact (mem_filterAt.mp h).1
  · rw [hres] at h; exact htp q h
  · rw [hres] at h; exact absurd h (List.not_mem_nil _)

theorem targetPoolOf_subset {pool : List Question} {target : String} {q : Question}
    (h : q ∈ targetPoolOf pool target) : q ∈ pool := by
  have hF : ∀ q ∈ pool.filter (fun q => decide (q.difficulty = target)), q ∈ pool :=
    fun q hq => (List.mem_filter.mp hq).1
  have hU := scanLoop_subset pool (upwardIndices (indexOfLabel target)) _ hF
  have hD := scanLoop_subset pool (downwardIndices (indexOfLabel target)) _ hU
  unfold targetPoolOf at h
  dsimp only at h
  split_ifs at h
  · exact h
  · exact hD q h
  · exact hU q h
  · exact hF q h

theorem targetPoolOf_ne_nil {pool : List Question} {target : String}
    (h : pool ≠ []) : targetPoolOf pool target ≠ [] := by
  unfold targetPoolOf
  dsimp only
  split_ifs with h1 h2 h3
  · exact h
  · exact fun hc => h3 (by rw [hc]; rfl)
  · exact fun hc => h2 (by rw [hc]; rfl)
  · exact fun hc => h1 (by rw [hc]; rfl)

/-! ### The binary64 product of a draw and an array length -/

theorem roundHalfEven_le (q : ℚ) : (roundHalfEven q : ℚ) ≤ q + 1 / 2 := by
  unfold roundHalfEven
  have hf : (⌊q⌋ : ℚ) ≤ q := Int.floor_le q
  dsimp only
  split_ifs with h1 h2 h3
  · linarith
  · push_cast; linarith
  · linarith
  · push_cast
    have : q - ⌊q⌋ = 1 / 2 := le_antisymm (not_lt.mp h2) (not_lt.mp h1)
    linarith

theorem roundHalfEven_nonneg {q : ℚ} (hq : 0 ≤ q) : 0 ≤ roundHalfEven q := by
  unfold roundHalfEven
  have hf : 0 ≤ ⌊q⌋ := Int.floor_nonneg.mpr hq
  dsimp only
  split_ifs <;> omega

theorem ulp64_pos (x : ℚ) : 0 < ulp64 x := zpow_pos (by norm_num) _

theorem round64_nonneg {x : ℚ} (hx : 0 ≤ x) : 0 ≤ round64 x := by
  unfold round64
  have h := roundHalfEven_nonneg (div_nonneg hx (ulp64_pos x).le)
  exact mul_nonneg (by exact_mod_cast h) (ulp64_pos x).le

theorem round64_le (x : ℚ) : round64 x ≤ x + ulp64 x / 2 := by
  unfold round64
  have h := roundHalfEven_le (x / ulp64 x)
  have hu := ulp64_pos x
  calc (roundHalfEven (x / ulp64 x) : ℚ) * ulp64 x
      ≤ (x / ulp64 x + 1 / 2) * ulp64 x := mul_le_mul_of_nonneg_right h hu.le
    _ = x + ulp64 x / 2 := by field_simp; ring

theorem half_ulp64_le {x : ℚ} (hx : 0 < x) :
    ulp64 x / 2 ≤ x * (2 : ℚ) ^ (-53 : ℤ) ∨
      (x < (2 : ℚ) ^ (-1022 : ℤ) ∧ ulp64 x / 2 = (2 : ℚ) ^ (-1075 : ℤ)) := by
  unfold ulp64
  rw [abs_of_pos hx]
  by_cases hL : (-1022 : ℤ) ≤ Int.log 2 x
  · left
    rw [max_eq_left hL]
    have h2 : ((2 : ℕ) : ℚ) ^ Int.log 2 x ≤ x := Int.zpow_log_le_self (by norm_num) hx
    have : (2 : ℚ) ^ (Int.log 2 x - 52) / 2 = (2 : ℚ) ^ Int.log 2 x * (2 : ℚ) ^ (-53 : ℤ) := by
      rw [← zpow_add₀ (by norm_num : (2 : ℚ) ≠ 0), div_eq_mul_inv, ← zpow_neg_one,
        ← zpow_add₀ (by norm_num : (2 : ℚ) ≠ 0)]
      congr 1
      ring
    rw [this]
    exact mul_le_mul_of_nonneg_right (by exact_mod_cast h2) (zpow_pos (by norm_num) _).le
  · right
    have hL' : Int.log 2 x + 1 ≤ -1022 := by omega
    rw [max_eq_right (by omega)]
    refine ⟨?_, ?_⟩
    · have h2 : x < ((2 : ℕ) : ℚ) ^ (Int.log 2 x + 1) := Int.lt_zpow_succ_log_self (by norm_num) x
      have h3 : ((2 : ℕ) : ℚ) ^ (Int.log 2 x + 1) ≤ ((2 : ℕ) : ℚ) ^ (-1022 : ℤ) :=
        zpow_le_zpow_right₀ (by norm_num) hL'
      exact lt_of_lt_of_le h2 (by exact_mod_cast h3)
    · rw [div_eq_mul_inv, ← zpow_neg_one, ← zpow_add₀ (by norm_num : (2 : ℚ) ≠ 0)]
      norm_num


theorem round64_zero : round64 0 = 0 := by
  unfold round64 roundHalfEven
  simp

/-- The binary64 product of a number in `[0, 1 - 2^-53]` and a positive
integer stays below the integer. -/
theorem round64_mul_lt {d : ℚ} (hd0 : 0 ≤ d) (hd1 : d ≤ 1 - (2 : ℚ) ^ (-53 : ℤ))
    {m : Nat} (hm : 0 < m) : round64 (d * (m : ℚ)) < (m : ℚ) := by
  have hmq : (1 : ℚ) ≤ (m : ℚ) := by exact_mod_cast hm
  have hx0 : 0 ≤ d * (m : ℚ) := mul_nonneg hd0 (by linarith)
  rcases hx0.eq_or_lt with hx | hx
  · rw [← hx, round64_zero]
    linarith
  · have hle := round64_le (d * (m : ℚ))
    have he : (0 : ℚ) < (2 : ℚ) ^ (-53 : ℤ) := zpow_pos (by norm_num) _
    rcases half_ulp64_le hx with h | ⟨hsmall, hulp⟩
    · generalize (2 : ℚ) ^ (-53 : ℤ) = ε at hd1 he h
      generalize round64 (d * (m : ℚ)) = y at hle ⊢
      generalize ulp64 (d * (m : ℚ)) = u at hle h
      have h1 : d * (m : ℚ) ≤ (1 - ε) * (m : ℚ) :=
        mul_le_mul_of_nonneg_right hd1 (by linarith)
      have h2 : y ≤ d * (m : ℚ) * (1 + ε) := by linarith
      have h3 : d * (m : ℚ) * (1 + ε) ≤ (1 - ε) * (m : ℚ) * (1 + ε) :=
        mul_le_mul_of_nonneg_right h1 (by linarith)
      have h4 : (1 - ε) * (m : ℚ) * (1 + ε) < (m : ℚ) := by
        have h5 : (1 - ε) * (m : ℚ) * (1 + ε) = (m : ℚ) - (m : ℚ) * (ε * ε) := by ring
        have h6 : 0 < (m : ℚ) * (ε * ε) := by positivity
        linarith
      linarith
    · have h1 : (2 : ℚ) ^ (-1022 : ℤ) + (2 : ℚ) ^ (-1075 : ℤ) < 1 := by norm_num
      generalize (2 : ℚ) ^ (-1022 : ℤ) = a at hsmall h1
      generalize (2 : ℚ) ^ (-1075 : ℤ) = b at hulp h1
      linarith

/-- The binary64 number at or below a number of `[0, 1)` is at most
`1 - 2^-53`, the largest binary64 number below 1. -/
theorem floor64_bounds {r : ℚ} (h0 : 0 ≤ r) (h1 : r < 1) :
    0 ≤ floor64 r ∧ floor64 r ≤ 1 - (2 : ℚ) ^ (-53 : ℤ) := by
  have hu := ulp64_pos r
  have hfl : (⌊r / ulp64 r⌋ : ℚ) ≤ r / ulp64 r := Int.floor_le _
  have hle : floor64 r ≤ r := by
    unfold floor64
    calc (⌊r / ulp64 r⌋ : ℚ) * ulp64 r ≤ r / ulp64 r * ulp64 r :=
          mul_le_mul_of_nonneg_right hfl hu.le
      _ = r := by field_simp
  refine ⟨?_, ?_⟩
  · unfold floor64
    have : 0 ≤ ⌊r / ulp64 r⌋ := Int.floor_nonneg.mpr (div_nonneg h0 hu.le)
    exact mul_nonneg (by exact_mod_cast this) hu.le
  · by_cases hhalf : r < 1 / 2
    · have h53 : (2 : ℚ) ^ (-53 : ℤ) ≤ 1 / 2 := by norm_num
      generalize (2 : ℚ) ^ (-53 : ℤ) = ε at h53 ⊢
      linarith
    · have hr : 0 < r := by linarith
      have hlog : Int.log 2 r = -1 := by
        have hlo : (-1 : ℤ) ≤ Int.log 2 r := by
          rw [← Int.zpow_le_iff_le_log (by norm_num) hr]
          norm_num
          linarith
        have hhi : Int.log 2 r < 0 := by
          rw [← Int.lt_zpow_iff_log_lt (by norm_num) hr]
          simpa using h1
        omega
      have hulp : ulp64 r = (2 : ℚ) ^ (-53 : ℤ) := by
        unfold ulp64
        rw [abs_of_pos hr, hlog]
        norm_num
      unfold floor64
      rw [hulp]
      have hlt : r / (2 : ℚ) ^ (-53 : ℤ) < ((2 ^ 53 : ℤ) : ℚ) := by
        rw [div_lt_iff₀ (zpow_pos (by norm_num) _)]
        norm_num
        linarith
      have hfloor : ⌊r / (2 : ℚ) ^ (-53 : ℤ)⌋ ≤ 2 ^ 53 - 1 := by
        have := Int.floor_lt.mpr hlt
        omega
      have : ((⌊r / (2 : ℚ) ^ (-53 : ℤ)⌋ : ℤ) : ℚ) ≤ ((2 ^ 53 - 1 : ℤ) : ℚ) := by
        exact_mod_cast hfloor
      calc ((⌊r / (2 : ℚ) ^ (-53 : ℤ)⌋ : ℤ) : ℚ) * (2 : ℚ) ^ (-53 : ℤ)
          ≤ ((2 ^ 53 - 1 : ℤ) : ℚ) * (2 : ℚ) ^ (-53 : ℤ) :=
            mul_le_mul_of_nonneg_right this (zpow_pos (by norm_num) _).le
        _ = 1 - (2 : ℚ) ^ (-53 : ℤ) := by norm_num

/-- A binary64 number is its own binary64 number at or below. -/
theorem floor64_of_isBinary64 {r : ℚ} (h : IsBinary64 r) : floor64 r = r := by
  unfold IsBinary64 round64 at h
  unfold floor64
  have hu := ulp64_pos r
  have hq : r / ulp64 r = (roundHalfEven (r / ulp64 r) : ℚ) := by
    rw [div_eq_iff hu.ne.symm]
    exact h.symm
  rw [hq, Int.floor_intCast]
  exact h

/-- The value `Math.floor(Math.random() * m)` for a positive integer `m` is a
position below `m`. -/
theorem floorOfProduct_spec {random : ℚ} (h0 : 0 ≤ random) (h1 : random < 1)
    {m : Nat} (hm : 0 < m) : ∃ k : Nat, floorOfProduct random m = (k : ℤ) ∧ k < m := by
  obtain ⟨hd0, hd1⟩ := floor64_bounds h0 h1
  have hnn : 0 ≤ floorOfProduct random m :=
    Int.floor_nonneg.mpr (round64_nonneg (mul_nonneg hd0 (Nat.cast_nonneg m)))
  have hlt : floorOfProduct random m < (m : ℤ) := by
    unfold floorOfProduct
    rw [Int.floor_lt]
    exact_mod_cast round64_mul_lt hd0 hd1 hm
  refine ⟨(floorOfProduct random m).toNat, (Int.toNat_of_nonneg hnn).symm, ?_⟩
  omega

/-- The random index of a draw in `[0, 1)` on a non-empty array is a position
among the first five. -/
theorem randomIndex_spec {random : ℚ} (h0 : 0 ≤ random) (h1 : random < 1)
    {n : Nat} (hn : 0 < n) :
    ∃ k : Nat, randomIndex random n = (k : ℤ) ∧ k < min 5 n :=
  floorOfProduct_spec h0 h1 (by omega)

/-- For a draw that is a binary64 number, the random index is the floor of the
binary64 product of the draw and `min 5 n`. -/
theorem randomIndex_of_isBinary64 {random : ℚ} (h : IsBinary64 random) (n : Nat) :
    randomIndex random n = ⌊round64 (random * ((min 5 n : Nat) : ℚ))⌋ := by
  unfold randomIndex floorOfProduct
  rw [floor64_of_isBinary64 h]

theorem arrayAt_natCast (xs : List Question) (k : Nat) : arrayAt xs (k : ℤ) = xs[k]? := rfl

/-- Past step 1, a draw in `[0, 1)` makes `selectNextQuestion` return the
member of the working pool at the random index, one of the first five. -/
theorem selectNextQuestion_spec (cands : List Question) (excl : List String) (a : ℚ)
    (past : List String) {random : ℚ} (h0 : 0 ≤ random) (h1 : random < 1)
    (hav : availableOf cands excl ≠ []) :
    ∃ (k : Nat) (q : Question),
      randomIndex random (workingPool cands excl a past).length = (k : ℤ) ∧
      k < min 5 (workingPool cands excl a past).length ∧
      (workingPool cands excl a past)[k]? = some q ∧
      selectNextQuestion cands excl a past random = some q := by
  have hwp : workingPool cands excl a past ≠ [] :=
    targetPoolOf_ne_nil (partitionOf_ne_nil hav)
  obtain ⟨k, hk, hlt⟩ := randomIndex_spec h0 h1 (List.length_pos.mpr hwp)
  have hkn : k < (workingPool cands excl a past).length := by omega
  refine ⟨k, (workingPool cands excl a past)[k], hk, hlt, List.getElem?_eq_getElem hkn, ?_⟩
  have hlen : (availableOf cands excl).length ≠ 0 := fun hc =>
    hav (List.eq_nil_of_length_eq_zero hc)
  unfold selectNextQuestion
  dsimp only
  rw [if_neg hlen]
  change arrayAt (workingPool cands excl a past)
    (randomIndex random (workingPool cands excl a past).length) = _
  rw [hk, arrayAt_natCast, List.getElem?_eq_getElem hkn]

theorem selectNextQuestion_none_of_nil (cands : List Question) (excl : List String) (a : ℚ)
    (past : List String) (random : ℚ) (hav : availableOf cands excl = []) :
    selectNextQuestion cands excl a past random = none := by
  unfold selectNextQuestion
  simp [hav]

/-- Whatever the draw, a returned question is a member of the working pool
and the candidates left after step 1 are not exhausted. -/
theorem selectNextQuestion_some_mem {cands : List Question} {excl : List String} {a : ℚ}
    {past : List String} {random : ℚ} {q : Question}
    (h : selectNextQuestion cands excl a past random = some q) :
    q ∈ workingPool cands excl a past := by
  unfold selectNextQuestion at h
  dsimp only at h
  split_ifs at h
  change arrayAt (workingPool cands excl a past) _ = some q at h
  unfold arrayAt at h
  split at h
  · exact List.getElem?_mem h
  · exact absurd h (by simp)

end AdaptiveQuiz

namespace AdaptiveQuiz

/-! ## The selector: exclusion, partition, difficulty, pick -/

theorem workingPool_subset_available {cands : List Question} {excl : List String} {a : ℚ}
    {past : List String} {q : Question} (h : q ∈ workingPool cands excl a past) :
    q ∈ availableOf cands excl :=
  partitionOf_subset (targetPoolOf_subset h)

/-- C4: for a draw in `[0, 1)`, `selectNextQuestion` returns nothing exactly
when every candidate is excluded by the current session, and otherwise returns
a candidate whose identifier is not excluded by the current session. -/
theorem selectNextQuestion_session_exclusion (cands : List Question) (excl : List String)
    (a : ℚ) (past : List String) (random : ℚ) (h0 : 0 ≤ random) (h1 : random < 1) :
    (selectNextQuestion cands excl a past random = none ↔ ∀ q ∈ cands, q.id ∈ excl) ∧
    ((¬ ∀ q ∈ cands, q.id ∈ excl) →
      ∃ q, selectNextQuestion cands excl a past random = some q ∧ q ∈ cands ∧ q.id ∉ excl) := by
  have key : (¬ ∀ q ∈ cands, q.id ∈ excl) →
      ∃ q, selectNextQuestion cands excl a past random = some q ∧ q ∈ cands ∧ q.id ∉ excl := by
    intro hne
    have hav : availableOf cands excl ≠ [] := fun hc => hne (availableOf_eq_nil.mp hc)
    obtain ⟨k, q, _, _, hq, hsel⟩ := selectNextQuestion_spec cands excl a past h0 h1 hav
    have hmem := mem_availableOf.mp (workingPool_subset_available (List.getElem?_mem hq))
    exact ⟨q, hsel, hmem.1, hmem.2⟩
  refine ⟨⟨?_, ?_⟩, key⟩
  · intro hnone
    by_contra hne
    obtain ⟨q, hq, _⟩ := key hne
    rw [hnone] at hq
    exact Option.noConfusion hq
  · intro hall
    exact selectNextQuestion_none_of_nil cands excl a past random (availableOf_eq_nil.mpr hall)

/-- C5: when some candidate is neither answered in this session nor in a past
one, the returned question was not answered in a past session; a question
answered in a past session is returned only when every candidate left by the
session exclusion was answered in a past session. -/
theorem selectNextQuestion_prefers_unseen (cands : List Question) (excl : List String)
    (a : ℚ) (past : List String) (random : ℚ) (h0 : 0 ≤ random) (h1 : random < 1) :
    ((∃ q ∈ cands, q.id ∉ excl ∧ q.id ∉ past) →
      ∃ r, selectNextQuestion cands excl a past random = some r ∧ r.id ∉ past) ∧
    (∀ r, selectNextQuestion cands excl a past random = some r → r.id ∈ past →
      ∀ q ∈ cands, q.id ∉ excl → q.id ∈ past) := by
  have unseen : ∀ r, selectNextQuestion cands excl a past random = some r →
      (∃ q ∈ cands, q.id ∉ excl ∧ q.id ∉ past) → r.id ∉ past := by
    intro r hr ⟨q, hq, hqe, hqp⟩
    have hmem : r ∈ partitionOf (availableOf cands excl) past :=
      targetPoolOf_subset (selectNextQuestion_some_mem hr)
    have hnew : q ∈ (availableOf cands excl).filter (fun q => !decide (q.id ∈ past)) :=
      List.mem_filter.mpr ⟨mem_availableOf.mpr ⟨hq, hqe⟩, by simpa using hqp⟩
    unfold partitionOf at hmem
    dsimp only at hmem
    rw [if_pos (List.length_pos_of_mem hnew)] at hmem
    simpa using (List.mem_filter.mp hmem).2
  refine ⟨?_, ?_⟩
  · rintro ⟨q, hq, hqe, hqp⟩
    have hav : availableOf cands excl ≠ [] :=
      List.ne_nil_of_mem (mem_availableOf.mpr ⟨hq, hqe⟩)
    obtain ⟨_, r, _, _, _, hsel⟩ := selectNextQuestion_spec cands excl a past h0 h1 hav
    exact ⟨r, hsel, unseen r hsel ⟨q, hq, hqe, hqp⟩⟩
  · intro r hr hrp q hq hqe
    by_contra hqp
    exact unseen r hr ⟨q, hq, hqe, hqp⟩ hrp

/-- C6: with `d` the band of the ability `a` (easy below 1.5, medium from 1.5
and below 2.5, hard from 2.5), when the chosen partition holds a question of
difficulty `d`, the returned question has difficulty `d`. -/
theorem selectNextQuestion_exact_band (cands : List Question) (excl : List String)
    (a : ℚ) (past : List String) (random : ℚ) (h0 : 0 ≤ random) (h1 : random < 1)
    (d : String)
    (hband : (a < 3 / 2 ∧ d = "easy") ∨ (3 / 2 ≤ a ∧ a < 5 / 2 ∧ d = "medium") ∨
      (5 / 2 ≤ a ∧ d = "hard"))
    (hex : ∃ q ∈ partitionOf (availableOf cands excl) past, q.difficulty = d) :
    ∃ r, selectNextQuestion cands excl a past random = some r ∧ r.difficulty = d := by
  have htd : targetDifficulty a = d := by
    unfold targetDifficulty
    rcases hband with ⟨h, rfl⟩ | ⟨h, h', rfl⟩ | ⟨h, rfl⟩
    · rw [if_pos h]
    · rw [if_neg (not_lt.mpr h), if_pos h']
    · rw [if_neg (not_lt.mpr (le_trans (by norm_num) h)), if_neg (not_lt.mpr h)]
  obtain ⟨q, hq, hqd⟩ := hex
  have hav : availableOf cands excl ≠ [] := List.ne_nil_of_mem (partitionOf_subset hq)
  obtain ⟨_, r, _, _, hr, hsel⟩ := selectNextQuestion_spec cands excl a past h0 h1 hav
  refine ⟨r, hsel, ?_⟩
  have hmem : r ∈ workingPool cands excl a past := List.getElem?_mem hr
  unfold workingPool targetPoolOf at hmem
  dsimp only at hmem
  have hpos : ((partitionOf (availableOf cands excl) past).filter
      (fun q => decide (q.difficulty = targetDifficulty a))).length ≠ 0 := by
    have : q ∈ (partitionOf (availableOf cands excl) past).filter
        (fun q => decide (q.difficulty = targetDifficulty a)) :=
      List.mem_filter.mpr ⟨hq, by simp [htd, hqd]⟩
    exact (List.length_pos_of_mem this).ne.symm
  rw [if_neg hpos] at hmem
  have := (List.mem_filter.mp hmem).2
  rw [htd] at this
  simpa using this

/-- Ability 2 on a catalogue with an easy and a medium question: the medium
question is returned. -/
theorem selectNextQuestion_exact_band_witness :
    ((3 / 2 : ℚ) ≤ 2 ∧ (2 : ℚ) < 5 / 2) ∧
    (∃ q ∈ partitionOf (availableOf [sampleEasy, sampleMedium] []) [],
      q.difficulty = "medium") ∧
    ∃ r, selectNextQuestion [sampleEasy, sampleMedium] [] 2 [] (1 / 2) = some r ∧
      r.difficulty = "medium" :=
  ⟨⟨by norm_num, by norm_num⟩, ⟨sampleMedium, by decide, rfl⟩,
    selectNextQuestion_exact_band [sampleEasy, sampleMedium] [] 2 [] (1 / 2)
      (by norm_num) (by norm_num) "medium"
      (Or.inr (Or.inl ⟨by norm_num, by norm_num, rfl⟩)) ⟨sampleMedium, by decide, rfl⟩⟩

end AdaptiveQuiz

namespace AdaptiveQuiz

/-! ## The fallback scan over adjacent difficulties -/

theorem rankOf_of_mem {d : String} (h : d ∈ difficultyOrder) :
    rankOf d < 3 ∧ difficultyOrder[rankOf d]? = some d := by
  simp only [difficultyOrder, List.mem_cons, List.mem_singleton, List.not_mem_nil,
    or_false] at h
  rcases h with rfl | rfl | rfl <;> exact ⟨by decide, by decide⟩

theorem rankOf_of_getElem? {i : Nat} {d : String} (h : difficultyOrder[i]? = some d) :
    rankOf d = i := by
  match i, h with
  | 0, h => simp [difficultyOrder] at h; subst h; decide
  | 1, h => simp [difficultyOrder] at h; subst h; decide
  | 2, h => simp [difficultyOrder] at h; subst h; decide
  | (n + 3), h => simp [difficultyOrder] at h

theorem indexOfLabel_of_mem {t : String} (h : t ∈ difficultyOrder) :
    indexOfLabel t = (rankOf t : ℤ) := by
  unfold indexOfLabel rankOf
  rw [if_pos h]

theorem targetDifficulty_mem (a : ℚ) : targetDifficulty a ∈ difficultyOrder := by
  unfold targetDifficulty difficultyOrder
  split_ifs <;> simp

theorem mem_upwardIndices {ci j : Nat} :
    j ∈ upwardIndices (ci : ℤ) ↔ ci < j ∧ j < 3 := by
  have h : ((ci : ℤ) + 1).toNat = ci + 1 := by omega
  simp only [upwardIndices, h, difficultyOrder, List.length_cons, List.length_nil,
    List.mem_range'_1]
  omega

theorem mem_downwardIndices {ci j : Nat} : j ∈ downwardIndices (ci : ℤ) ↔ j < ci := by
  simp [downwardIndices]

theorem upwardIndices_pairwise (ci : ℤ) : (upwardIndices ci).Pairwise (fun x y => x < y) :=
  List.pairwise_lt_range' _ _

theorem downwardIndices_pairwise (ci : ℤ) :
    (downwardIndices ci).Pairwise (fun x y => y < x) := by
  unfold downwardIndices
  rw [List.pairwise_reverse]
  exact List.pairwise_lt_range _

theorem scanLoop_found (pool : List Question) (idxs : List Nat) (tp : List Question)
    (h : ∃ j ∈ idxs, filterAt pool j ≠ []) :
    ∃ pre i post, idxs = pre ++ i :: post ∧ (∀ j ∈ pre, filterAt pool j = []) ∧
      filterAt pool i ≠ [] ∧ scanLoop pool idxs tp = filterAt pool i := by
  rcases scanLoop_spec pool idxs tp with hfound | ⟨hall, _⟩
  · exact hfound
  · obtain ⟨j, hj, hne⟩ := h
    exact absurd (hall j hj) hne

theorem scanLoop_nil (pool : List Question) (idxs : List Nat)
    (h : ∀ j ∈ idxs, filterAt pool j = []) : scanLoop pool idxs [] = [] := by
  rcases scanLoop_spec pool idxs [] with ⟨pre, i, post, he, _, hne, _⟩ | ⟨_, hres | hres⟩
  · exact absurd (h i (by rw [he]; simp)) hne
  · exact hres
  · exact hres

/-- A question with a label of the order is found by the filter at its rank. -/
theorem mem_filterAt_rankOf {pool : List Question} {q : Question} (hq : q ∈ pool)
    (hd : q.difficulty ∈ difficultyOrder) : q ∈ filterAt pool (rankOf q.difficulty) :=
  mem_filterAt.mpr ⟨hq, (rankOf_of_mem hd).2⟩

/-- The pool after steps 5 and 6 when no question has the target label and
some question is harder: the questions of the lowest harder label. -/
theorem targetPoolOf_harder {pool : List Question} {target : String}
    (hlab : ∀ q ∈ pool, q.difficulty ∈ difficultyOrder)
    (hnone : ∀ q ∈ pool, q.difficulty ≠ target)
    (hex : ∃ q ∈ pool, rankOf target < rankOf q.difficulty) :
    ∃ i, targetPoolOf pool target = filterAt pool i ∧ rankOf target < i ∧
      ∀ q ∈ pool, rankOf target < rankOf q.difficulty → i ≤ rankOf q.difficulty := by
  have hF : pool.filter (fun q => decide (q.difficulty = target)) = [] := by
    rw [List.filter_eq_nil_iff]
    intro q hq
    simpa using hnone q hq
  obtain ⟨q0, hq0, hlt0⟩ := hex
  have ht : target ∈ difficultyOrder := by
    apply List.indexOf_lt_length.mp
    have := (rankOf_of_mem (hlab q0 hq0)).1
    change rankOf target < 3
    omega
  have hup : ∃ j ∈ upwardIndices (rankOf target : ℤ), filterAt pool j ≠ [] :=
    ⟨rankOf q0.difficulty, mem_upwardIndices.mpr ⟨hlt0, (rankOf_of_mem (hlab q0 hq0)).1⟩,
      List.ne_nil_of_mem (mem_filterAt_rankOf hq0 (hlab q0 hq0))⟩
  obtain ⟨pre, i, post, he, hpre, hne, hres⟩ := scanLoop_found pool _ [] hup
  have hi : i ∈ upwardIndices (rankOf target : ℤ) := by rw [he]; simp
  have hlen : (filterAt pool i).length ≠ 0 := fun hc => hne (List.eq_nil_of_length_eq_zero hc)
  refine ⟨i, ?_, (mem_upwardIndices.mp hi).1, ?_⟩
  · unfold targetPoolOf
    dsimp only
    rw [indexOfLabel_of_mem ht, hF, hres]
    simp [hlen]
  · intro q hq hlt
    by_contra hcon
    have hqi : rankOf q.difficulty < i := by omega
    have hmem : rankOf q.difficulty ∈ pre ++ i :: post := by
      rw [← he]
      exact mem_upwardIndices.mpr ⟨hlt, (rankOf_of_mem (hlab q hq)).1⟩
    have hpw := upwardIndices_pairwise (rankOf target : ℤ)
    rw [he, List.pairwise_append] at hpw
    rcases List.mem_append.mp hmem with hin | hin
    · have := hpre _ hin
      exact List.ne_nil_of_mem (mem_filterAt_rankOf hq (hlab q hq)) this
    · rcases List.mem_cons.mp hin with heq | hpost
      · omega
      · have := (List.pairwise_cons.mp hpw.2.1).1 _ hpost
        omega

/-- The pool after steps 5 and 6 when no question has the target label and
none is harder: the questions of the highest easier label. -/
theorem targetPoolOf_easier {pool : List Question} {target : String}
    (ht : target ∈ difficultyOrder) (hne : pool ≠ [])
    (hlab : ∀ q ∈ pool, q.difficulty ∈ difficultyOrder)
    (hnone : ∀ q ∈ pool, q.difficulty ≠ target)
    (hex : ¬ ∃ q ∈ pool, rankOf target < rankOf q.difficulty) :
    ∃ i, targetPoolOf pool target = filterAt pool i ∧ i < rankOf target ∧
      ∀ q ∈ pool, rankOf q.difficulty < rankOf target → rankOf q.difficulty ≤ i := by
  have hF : pool.filter (fun q => decide (q.difficulty = target)) = [] := by
    rw [List.filter_eq_nil_iff]
    intro q hq
    simpa using hnone q hq
  have hup : ∀ j ∈ upwardIndices (rankOf target : ℤ), filterAt pool j = [] := by
    intro j hj
    by_contra hc
    obtain ⟨q, hq⟩ := List.exists_mem_of_ne_nil _ hc
    have hq' := mem_filterAt.mp hq
    exact hex ⟨q, hq'.1, by rw [rankOf_of_getElem? hq'.2]; exact (mem_upwardIndices.mp hj).1⟩
  have hU := scanLoop_nil pool _ hup
  obtain ⟨q0, hq0⟩ := List.exists_mem_of_ne_nil _ hne
  have hlower : ∀ q ∈ pool, rankOf q.difficulty < rankOf target := by
    intro q hq
    have h1 : ¬ rankOf target < rankOf q.difficulty := fun hc => hex ⟨q, hq, hc⟩
    have h2 : rankOf q.difficulty ≠ rankOf target := by
      intro hc
      have h3 := (rankOf_of_mem (hlab q hq)).2
      have h7 := (rankOf_of_mem ht).2
      rw [hc, h7] at h3
      exact hnone q hq (Option.some.inj h3).symm
    omega
  have hdown : ∃ j ∈ downwardIndices (rankOf target : ℤ), filterAt pool j ≠ [] :=
    ⟨rankOf q0.difficulty, mem_downwardIndices.mpr (hlower q0 hq0),
      List.ne_nil_of_mem (mem_filterAt_rankOf hq0 (hlab q0 hq0))⟩
  obtain ⟨pre, i, post, he, hpre, hnei, hres⟩ := scanLoop_found pool _ [] hdown
  have hi : i ∈ downwardIndices (rankOf target : ℤ) := by rw [he]; simp
  have hlen : (filterAt pool i).length ≠ 0 := fun hc => hnei (List.eq_nil_of_length_eq_zero hc)
  refine ⟨i, ?_, mem_downwardIndices.mp hi, ?_⟩
  · unfold targetPoolOf
    dsimp only
    rw [indexOfLabel_of_mem ht, hF, hU]
    simp [hres, hlen]
  · intro q hq hlt
    by_contra hcon
    have hmem : rankOf q.difficulty ∈ pre ++ i :: post := by
      rw [← he]
      exact mem_downwardIndices.mpr hlt
    have hpw := downwardIndices_pairwise (rankOf target : ℤ)
    rw [he, List.pairwise_append] at hpw
    rcases List.mem_append.mp hmem with hin | hin
    · have := hpre _ hin
      exact List.ne_nil_of_mem (mem_filterAt_rankOf hq (hlab q hq)) this
    · rcases List.mem_cons.mp hin with heq | hpost
      · omega
      · have := (List.pairwise_cons.mp hpw.2.1).1 _ hpost
        omega

end AdaptiveQuiz

namespace AdaptiveQuiz

theorem scanLoop_sublist (pool : List Question) (idxs : List Nat) (tp : List Question)
    (htp : tp.Sublist pool) : (scanLoop pool idxs tp).Sublist pool := by
  rcases scanLoop_spec pool idxs tp with ⟨_, i, _, _, _, _, hres⟩ | ⟨_, hres | hres⟩
  · rw [hres]; exact List.filter_sublist _
  · rw [hres]; exact htp
  · rw [hres]; exact List.nil_sublist _

theorem targetPoolOf_sublist (pool : List Question) (target : String) :
    (targetPoolOf pool target).Sublist pool := by
  have hF : (pool.filter (fun q => decide (q.difficulty = target))).Sublist pool :=
    List.filter_sublist _
  have hU := scanLoop_sublist pool (upwardIndices (indexOfLabel target)) _ hF
  have hD := scanLoop_sublist pool (downwardIndices (indexOfLabel target)) _ hU
  unfold targetPoolOf
  dsimp only
  split_ifs
  · exact List.Sublist.refl _
  · exact hD
  · exact hU
  · exact hF

/-- The working pool keeps the order of the candidate list. -/
theorem workingPool_sublist (cands : List Question) (excl : List String) (a : ℚ)
    (past : List String) : (workingPool cands excl a past).Sublist cands := by
  have hav : (availableOf cands excl).Sublist cands := List.filter_sublist _
  have hpart : (partitionOf (availableOf cands excl) past).Sublist (availableOf cands excl) := by
    unfold partitionOf
    dsimp only
    split_ifs <;> exact List.filter_sublist _
  exact (targetPoolOf_sublist _ _).trans (hpart.trans hav)

/-- The easy question is answered in this session and the hard one is not:
the hard one is returned. -/
theorem selectNextQuestion_session_exclusion_witness :
    ((0 : ℚ) ≤ 1 / 2 ∧ (1 / 2 : ℚ) < 1) ∧
    (selectNextQuestion [sampleEasy, sampleHard] ["q1"] 1 ["q3"] (1 / 2) = none ↔
      ∀ q ∈ [sampleEasy, sampleHard], q.id ∈ ["q1"]) ∧
    ((¬ ∀ q ∈ [sampleEasy, sampleHard], q.id ∈ ["q1"]) →
      ∃ q, selectNextQuestion [sampleEasy, sampleHard] ["q1"] 1 ["q3"] (1 / 2) = some q ∧
        q ∈ [sampleEasy, sampleHard] ∧ q.id ∉ ["q1"]) :=
  ⟨⟨by norm_num, by norm_num⟩,
    selectNextQuestion_session_exclusion [sampleEasy, sampleHard] ["q1"] 1 ["q3"] (1 / 2)
      (by norm_num) (by norm_num)⟩

/-- The easy question was answered in a past session and the hard one never:
at ability 1 the hard one is returned all the same. -/
theorem selectNextQuestion_prefers_unseen_witness :
    ((0 : ℚ) ≤ 3 / 4 ∧ (3 / 4 : ℚ) < 1) ∧
    (∃ q ∈ [sampleEasy, sampleHard], q.id ∉ ([] : List String) ∧ q.id ∉ ["q1"]) ∧
    ∃ r, selectNextQuestion [sampleEasy, sampleHard] [] 1 ["q1"] (3 / 4) = some r ∧
      r.id ∉ ["q1"] :=
  ⟨⟨by norm_num, by norm_num⟩, ⟨sampleHard, by decide, by decide, by decide⟩,
    (selectNextQuestion_prefers_unseen [sampleEasy, sampleHard] [] 1 ["q1"] (3 / 4)
      (by norm_num) (by norm_num)).1 ⟨sampleHard, by decide, by decide, by decide⟩⟩

/-- C7: when the chosen partition is non-empty, carries only labels of the
order easy, medium, hard and holds no question of the target label, the
returned question has the lowest label above the target if the partition
holds a harder question, and the highest label below the target otherwise. -/
theorem selectNextQuestion_adjacent_band (cands : List Question) (excl : List String)
    (a : ℚ) (past : List String) (random : ℚ) (h0 : 0 ≤ random) (h1 : random < 1)
    (hne : partitionOf (availableOf cands excl) past ≠ [])
    (hlab : ∀ q ∈ partitionOf (availableOf cands excl) past, q.difficulty ∈ difficultyOrder)
    (hnone : ∀ q ∈ partitionOf (availableOf cands excl) past,
      q.difficulty ≠ targetDifficulty a) :
    ∃ r, selectNextQuestion cands excl a past random = some r ∧
      r ∈ partitionOf (availableOf cands excl) past ∧
      ((∃ q ∈ partitionOf (availableOf cands excl) past,
          rankOf (targetDifficulty a) < rankOf q.difficulty) →
        rankOf (targetDifficulty a) < rankOf r.difficulty ∧
        ∀ q ∈ partitionOf (availableOf cands excl) past,
          rankOf (targetDifficulty a) < rankOf q.difficulty →
          rankOf r.difficulty ≤ rankOf q.difficulty) ∧
      ((¬ ∃ q ∈ partitionOf (availableOf cands excl) past,
          rankOf (targetDifficulty a) < rankOf q.difficulty) →
        rankOf r.difficulty < rankOf (targetDifficulty a) ∧
        ∀ q ∈ partitionOf (availableOf cands excl) past,
          rankOf q.difficulty < rankOf (targetDifficulty a) →
          rankOf q.difficulty ≤ rankOf r.difficulty) := by
  have hav : availableOf cands excl ≠ [] := by
    obtain ⟨q, hq⟩ := List.exists_mem_of_ne_nil _ hne
    exact List.ne_nil_of_mem (partitionOf_subset hq)
  obtain ⟨_, r, _, _, hr, hsel⟩ := selectNextQuestion_spec cands excl a past h0 h1 hav
  have hmem : r ∈ targetPoolOf (partitionOf (availableOf cands excl) past)
      (targetDifficulty a) := List.getElem?_mem hr
  refine ⟨r, hsel, targetPoolOf_subset hmem, ?_, ?_⟩
  · intro hex
    obtain ⟨i, hpool, hlt, hmin⟩ := targetPoolOf_harder hlab hnone hex
    rw [hpool] at hmem
    rw [rankOf_of_getElem? (mem_filterAt.mp hmem).2]
    exact ⟨hlt, hmin⟩
  · intro hex
    obtain ⟨i, hpool, hlt, hmax⟩ :=
      targetPoolOf_easier (targetDifficulty_mem a) hne hlab hnone hex
    rw [hpool] at hmem
    rw [rankOf_of_getElem? (mem_filterAt.mp hmem).2]
    exact ⟨hlt, hmax⟩

/-- C8: on a non-empty working pool of length `n`, which keeps the order of
the candidate list, and a draw in `[0, 1)`, the index
`Math.floor(random * Math.min(5, n))`, the floor of the binary64 product when
the draw is a binary64 number, is a position of the pool below `min 5 n`, and
the returned question is the member at that position, hence one of the first
five members: the sixth and later members are at no position below 5. -/
theorem selectNextQuestion_first_five (cands : List Question) (excl : List String)
    (a : ℚ) (past : List String) (random : ℚ) (h0 : 0 ≤ random) (h1 : random < 1)
    (hne : workingPool cands excl a past ≠ []) :
    (workingPool cands excl a past).Sublist cands ∧
    (IsBinary64 random →
      randomIndex random (workingPool cands excl a past).length =
        ⌊round64 (random * ((min 5 (workingPool cands excl a past).length : Nat) : ℚ))⌋) ∧
    ∃ k : Nat, randomIndex random (workingPool cands excl a past).length = (k : ℤ) ∧
      k < min 5 (workingPool cands excl a past).length ∧
      k < (workingPool cands excl a past).length ∧ k < 5 ∧
      ∃ q, selectNextQuestion cands excl a past random = some q ∧
        (workingPool cands excl a past)[k]? = some q ∧
        ((workingPool cands excl a past).take 5)[k]? = some q ∧
        q ∈ (workingPool cands excl a past).take 5 := by
  have hav : availableOf cands excl ≠ [] := by
    obtain ⟨q, hq⟩ := List.exists_mem_of_ne_nil _ hne
    exact List.ne_nil_of_mem (workingPool_subset_available hq)
  obtain ⟨k, q, hk, hlt, hq, hsel⟩ := selectNextQuestion_spec cands excl a past h0 h1 hav
  have hk5 : k < 5 := by omega
  have htake : ((workingPool cands excl a past).take 5)[k]? = some q := by
    rw [List.getElem?_take_of_lt hk5, hq]
  exact ⟨workingPool_sublist cands excl a past,
    fun hb => randomIndex_of_isBinary64 hb _,
    k, hk, hlt, by omega, hk5, q, hsel, hq, htake, List.getElem?_mem htake⟩

/-- Target medium with only an easy and a hard question left: the scan goes
up first. -/
theorem selectNextQuestion_adjacent_band_witness :
    ∃ r, selectNextQuestion [sampleEasy, sampleHard] [] 2 [] (1 / 2) = some r ∧
      r ∈ partitionOf (availableOf [sampleEasy, sampleHard] []) [] ∧
      ((∃ q ∈ partitionOf (availableOf [sampleEasy, sampleHard] []) [],
          rankOf (targetDifficulty 2) < rankOf q.difficulty) →
        rankOf (targetDifficulty 2) < rankOf r.difficulty ∧
        ∀ q ∈ partitionOf (availableOf [sampleEasy, sampleHard] []) [],
          rankOf (targetDifficulty 2) < rankOf q.difficulty →
          rankOf r.difficulty ≤ rankOf q.difficulty) ∧
      ((¬ ∃ q ∈ partitionOf (availableOf [sampleEasy, sampleHard] []) [],
          rankOf (targetDifficulty 2) < rankOf q.difficulty) →
        rankOf r.difficulty < rankOf (targetDifficulty 2) ∧
        ∀ q ∈ partitionOf (availableOf [sampleEasy, sampleHard] []) [],
          rankOf q.difficulty < rankOf (targetDifficulty 2) →
          rankOf q.difficulty ≤ rankOf r.difficulty) :=
  selectNextQuestion_adjacent_band [sampleEasy, sampleHard] [] 2 [] (1 / 2)
    (by norm_num) (by norm_num) (by decide) (by decide)
    (by
      have ht : targetDifficulty 2 = "medium" := by
        unfold targetDifficulty; norm_num
      rw [ht]
      decide)

/-- Six easy questions at ability 1: the working pool has all six, and the
draw nearest to 0.6, whose binary64 product with 5 is 3, returns the fourth;
the draw 0 returns the first and the largest draw below 1 the fifth. -/
theorem selectNextQuestion_first_five_witness :
    ((0 : ℚ) ≤ draw06 ∧ draw06 < 1 ∧ IsBinary64 draw06) ∧
    workingPool sixEasy [] 1 [] = sixEasy ∧
    round64 (draw06 * 5) = 3 ∧
    selectNextQuestion sixEasy [] 1 [] draw06 = some (easyQuestion "e4") ∧
    selectNextQuestion sixEasy [] 1 [] 0 = some (easyQuestion "e1") ∧
    selectNextQuestion sixEasy [] 1 [] drawMax = some (easyQuestion "e5") ∧
    ((workingPool sixEasy [] 1 []).Sublist sixEasy ∧
      (IsBinary64 draw06 →
        randomIndex draw06 (workingPool sixEasy [] 1 []).length =
          ⌊round64 (draw06 * ((min 5 (workingPool sixEasy [] 1 []).length : Nat) : ℚ))⌋) ∧
      ∃ k : Nat, randomIndex draw06 (workingPool sixEasy [] 1 []).length = (k : ℤ) ∧
        k < min 5 (workingPool sixEasy [] 1 []).length ∧
        k < (workingPool sixEasy [] 1 []).length ∧ k < 5 ∧
        ∃ q, selectNextQuestion sixEasy [] 1 [] draw06 = some q ∧
          (workingPool sixEasy [] 1 [])[k]? = some q ∧
          ((workingPool sixEasy [] 1 []).take 5)[k]? = some q ∧
          q ∈ (workingPool sixEasy [] 1 []).take 5) :=
  have hwp : workingPool sixEasy [] 1 [] = sixEasy := by decide!
  ⟨⟨by unfold draw06; norm_num, by unfold draw06; norm_num, by decide!⟩, hwp, by decide!,
    by decide!, by decide!, by decide!,
    selectNextQuestion_first_five sixEasy [] 1 [] draw06 (by unfold draw06; norm_num)
      (by unfold draw06; norm_num) (by rw [hwp]; decide)⟩

end AdaptiveQuiz

namespace AdaptiveQuiz

/-! ## The progression rule of `submitAnswer` -/

/-- The session after an answer that is not the correct one. -/
theorem submitAnswer_incorrect {c : Controller} {s : Session} {question : Question}
    (hs : c.currentSession = some s) (hq : s.currentQuestion = some question)
    {sel : Option String} (hsel : sel ≠ some question.correctAnswer)
    (clock : Clock) (random : ℚ) (ok : Bool) :
    (submitAnswer c sel clock random ok).currentSession = some
      { s with
        totalQuestions := s.totalQuestions + 1
        correctStreakAtCurrentLevel := 0
        history := s.history ++
          [⟨clock.now, s.id, question.id, sel, false, question.difficulty, clock.iso,
            s.ability⟩] } := by
  unfold submitAnswer
  simp [hs, hq, hsel]

/-- The session after a correct answer that brings the streak to the threshold. -/
theorem submitAnswer_correct_advance {c : Controller} {s : Session} {question : Question}
    (hs : c.currentSession = some s) (hq : s.currentQuestion = some question)
    (hthr : ((s.correctStreakAtCurrentLevel + 1 : Nat) : ℤ) ≥ s.thresholdToNextLevel)
    (clock : Clock) (random : ℚ) (ok : Bool) :
    (submitAnswer c (some question.correctAnswer) clock random ok).currentSession = some
      { s with
        totalQuestions := s.totalQuestions + 1
        score := s.score + 1
        ability := calculateNewAbility s.ability true question.difficulty
        correctStreakAtCurrentLevel := 0
        thresholdToNextLevel := drawThreshold random
        history := s.history ++
          [⟨clock.now, s.id, question.id, some question.correctAnswer, true,
            question.difficulty, clock.iso,
            calculateNewAbility s.ability true question.difficulty⟩] } := by
  unfold submitAnswer
  simp only [hs, hq, decide_True, if_true, ge_iff_le]
  rw [if_pos hthr]

/-- The session after a correct answer that leaves the streak below the threshold. -/
theorem submitAnswer_correct_hold {c : Controller} {s : Session} {question : Question}
    (hs : c.currentSession = some s) (hq : s.currentQuestion = some question)
    (hthr : ((s.correctStreakAtCurrentLevel + 1 : Nat) : ℤ) < s.thresholdToNextLevel)
    (clock : Clock) (random : ℚ) (ok : Bool) :
    (submitAnswer c (some question.correctAnswer) clock random ok).currentSession = some
      { s with
        totalQuestions := s.totalQuestions + 1
        score := s.score + 1
        correctStreakAtCurrentLevel := s.correctStreakAtCurrentLevel + 1
        history := s.history ++
          [⟨clock.now, s.id, question.id, some question.correctAnswer, true,
            question.difficulty, clock.iso, s.ability⟩] } := by
  unfold submitAnswer
  simp only [hs, hq, decide_True, if_true, ge_iff_le]
  rw [if_neg (not_le.mpr hthr)]

theorem submitAnswer_of_no_session {c : Controller} (hs : c.currentSession = none)
    (sel : Option String) (clock : Clock) (random : ℚ) (ok : Bool) :
    submitAnswer c sel clock random ok = c := by
  unfold submitAnswer
  simp [hs]

theorem submitAnswer_of_no_question {c : Controller} {s : Session}
    (hs : c.currentSession = some s) (hq : s.currentQuestion = none)
    (sel : Option String) (clock : Clock) (random : ℚ) (ok : Bool) :
    submitAnswer c sel clock random ok = c := by
  unfold submitAnswer
  simp [hs, hq]

theorem calculateNewAbility_bounds (a : ℚ) (isCorrect : Bool) (d : String) :
    1 ≤ calculateNewAbility a isCorrect d ∧ calculateNewAbility a isCorrect d ≤ 3 := by
  unfold calculateNewAbility
  dsimp only
  exact ⟨le_max_left _ _, max_le (by norm_num) (min_le_left _ _)⟩

theorem calculateNewAbility_ge {a : ℚ} (ha : a ≤ 3) (d : String) :
    a ≤ calculateNewAbility a true d := by
  unfold calculateNewAbility
  simp only [if_true]
  exact le_max_of_le_right (le_min ha (by linarith))

theorem calculateNewAbility_eq_min {a : ℚ} (ha : 1 ≤ a) (d : String) :
    calculateNewAbility a true d = min 3 (a + 1 / 2) := by
  unfold calculateNewAbility
  simp only [if_true]
  exact max_eq_right (le_min (by norm_num) (by linarith))

theorem drawThreshold_two_or_three {random : ℚ} (h0 : 0 ≤ random) (h1 : random < 1) :
    drawThreshold random = 2 ∨ drawThreshold random = 3 := by
  unfold drawThreshold
  have hlo : 0 ≤ ⌊random * 2⌋ := Int.floor_nonneg.mpr (by linarith)
  have hhi : ⌊random * 2⌋ < 2 := by
    rw [Int.floor_lt]
    push_cast
    linarith
  omega

end AdaptiveQuiz

namespace AdaptiveQuiz

/-! ## The ability invariant along a run -/

/-- Recording an attempt at an ability that did not decrease keeps the
ability facts. -/
theorem Session.AbilityInv.record {s s' : Session} (hinv : s.AbilityInv) {a' : ℚ}
    (hge : s.ability ≤ a') (hle : a' ≤ 3) (hab : s'.ability = a')
    (htr : s'.abilityTrace = s.abilityTrace ++ [a']) : s'.AbilityInv := by
  obtain ⟨h1, _, hsorted, hmax⟩ := hinv
  refine ⟨by rw [hab]; linarith, by rw [hab]; exact hle, ?_, ?_⟩
  · rw [htr, List.pairwise_append]
    refine ⟨hsorted, List.pairwise_singleton _ _, ?_⟩
    intro x hx y hy
    rw [List.mem_singleton.mp hy]
    exact le_trans (hmax x hx) hge
  · intro x hx
    rw [htr] at hx
    rw [hab]
    rcases List.mem_append.mp hx with hx | hx
    · exact le_trans (hmax x hx) hge
    · rw [List.mem_singleton.mp hx]

/-- What `submitAnswer` does to the ability of the active session: it leaves
a session whose ability is not lower, and the ability facts are kept. -/
theorem submitAnswer_ability {c : Controller} {s : Session}
    (hs : c.currentSession = some s) (hinv : s.AbilityInv)
    (sel : Option String) (clock : Clock) (random : ℚ) (ok : Bool) :
    ∃ s', (submitAnswer c sel clock random ok).currentSession = some s' ∧
      s.ability ≤ s'.ability ∧ s'.AbilityInv := by
  cases hq : s.currentQuestion with
  | none =>
    rw [submitAnswer_of_no_question hs hq]
    exact ⟨s, hs, le_refl _, hinv⟩
  | some question =>
    by_cases hsel : sel = some question.correctAnswer
    · subst hsel
      by_cases hthr : ((s.correctStreakAtCurrentLevel + 1 : Nat) : ℤ) ≥ s.thresholdToNextLevel
      · refine ⟨_, submitAnswer_correct_advance hs hq hthr clock random ok,
          calculateNewAbility_ge hinv.2.1 question.difficulty, ?_⟩
        exact hinv.record (calculateNewAbility_ge hinv.2.1 question.difficulty)
          (calculateNewAbility_bounds _ _ _).2 rfl (by simp [Session.abilityTrace])
      · refine ⟨_, submitAnswer_correct_hold hs hq (not_le.mp hthr) clock random ok,
          le_refl _, ?_⟩
        exact hinv.record (le_refl _) hinv.2.1 rfl (by simp [Session.abilityTrace])
    · refine ⟨_, submitAnswer_incorrect hs hq hsel clock random ok, le_refl _, ?_⟩
      exact hinv.record (le_refl _) hinv.2.1 rfl (by simp [Session.abilityTrace])

theorem abilityInv_submitAnswer {c : Controller} (hinv : c.AbilityInv)
    (sel : Option String) (clock : Clock) (random : ℚ) (ok : Bool) :
    (submitAnswer c sel clock random ok).AbilityInv := by
  intro s' hs'
  cases hs : c.currentSession with
  | none =>
    rw [submitAnswer_of_no_session hs] at hs'
    exact hinv s' hs'
  | some s =>
    obtain ⟨t, ht, _, htinv⟩ := submitAnswer_ability hs (hinv s hs) sel clock random ok
    rw [ht] at hs'
    exact Option.some.inj hs' ▸ htinv

theorem abilityInv_endQuiz {c : Controller} (hinv : c.AbilityInv)
    (redirect : Bool) (clock : Clock) (ok : Bool) :
    (endQuiz c redirect clock ok).AbilityInv := by
  intro s' hs'
  unfold endQuiz at hs'
  cases hs : c.currentSession with
  | none =>
    rw [hs] at hs'
    exact hinv s' hs'
  | some s =>
    rw [hs] at hs'
    dsimp only at hs'
    split_ifs at hs'
    have := Option.some.inj hs'
    subst this
    exact hinv s hs

theorem abilityInv_nextQuestion {c : Controller} (hinv : c.AbilityInv)
    (clock : Clock) (random : ℚ) (ok : Bool) :
    (nextQuestion c clock random ok).AbilityInv := by
  unfold nextQuestion
  cases hs : c.currentSession with
  | none => exact hinv
  | some s =>
    dsimp only
    split_ifs
    · exact abilityInv_endQuiz hinv _ _ _
    · split
      · exact abilityInv_endQuiz hinv _ _ _
      · intro s' hs'
        have := Option.some.inj hs'
        subst this
        exact hinv s hs

theorem abilityInv_startQuiz {c : Controller} (hinv : c.AbilityInv) (subject : String)
    (questions : Except String (List Question)) (attempts : Except String (List Attempt))
    (clock : Clock) (randomThreshold randomSelect : ℚ) (ok : Bool) :
    (startQuiz c subject questions attempts clock randomThreshold randomSelect ok).AbilityInv := by
  have hfresh : ∀ (t : ℤ), Session.AbilityInv
      { id := clock.now, subject := subject, startedAt := clock.iso, ability := 1, score := 0,
        totalQuestions := 0, history := [], correctStreakAtCurrentLevel := 0,
        thresholdToNextLevel := t, currentQuestion := none, endedAt := none } := by
    intro t
    refine ⟨le_refl _, by norm_num, ?_, ?_⟩ <;> simp [Session.abilityTrace]
  unfold startQuiz
  cases questions with
  | error err => exact hinv
  | ok qs =>
    dsimp only
    split_ifs
    · exact hinv
    · cases attempts with
      | error err =>
        intro s' hs'
        have := Option.some.inj hs'
        subst this
        exact hfresh _
      | ok allAttempts =>
        dsimp only
        intro s' hs'
        refine abilityInv_nextQuestion ?_ clock randomSelect ok s' hs'
        intro s0 hs0
        have := Option.some.inj hs0
        subst this
        exact hfresh _

theorem abilityInv_run {c : Controller} (hinv : c.AbilityInv) (calls : List Call) :
    (c.run calls).AbilityInv := by
  induction calls generalizing c with
  | nil => exact hinv
  | cons call rest ih =>
    apply ih
    cases call with
    | startQuiz subject questions attempts clock rt rs ok =>
      exact abilityInv_startQuiz hinv _ _ _ _ _ _ _
    | nextQuestion clock random ok => exact abilityInv_nextQuestion hinv _ _ _
    | submitAnswer sel clock random ok => exact abilityInv_submitAnswer hinv _ _ _ _
    | endQuiz redirect clock ok => exact abilityInv_endQuiz hinv _ _ _

theorem abilityInv_initial : Controller.initial.AbilityInv := by
  intro s hs
  exact Option.noConfusion hs

end AdaptiveQuiz

namespace AdaptiveQuiz

/-! ## Session exclusion along a quiz that waits for the timer -/

/-- What `submitAnswer` does, on an active session with a current question,
to the parts of the state the selector reads and to the history. -/
theorem submitAnswer_frame {c : Controller} {s : Session} {question : Question}
    (hs : c.currentSession = some s) (hq : s.currentQuestion = some question)
    (sel : Option String) (clock : Clock) (random : ℚ) (ok : Bool) :
    ∃ s' att, (submitAnswer c sel clock random ok).currentSession = some s' ∧
      s'.history = s.history ++ [att] ∧ att.questionId = question.id ∧
      s'.currentQuestion = some question ∧
      (submitAnswer c sel clock random ok).currentSessionAnsweredIds =
        setAdd c.currentSessionAnsweredIds question.id ∧
      (submitAnswer c sel clock random ok).allQuestions = c.allQuestions ∧
      (submitAnswer c sel clock random ok).pastAnsweredIds = c.pastAnsweredIds := by
  unfold submitAnswer
  simp only [hs, hq]
  split_ifs <;> refine ⟨_, _, rfl, rfl, rfl, ?_⟩ <;> simp

theorem mem_setAdd {ids : List String} {id x : String} :
    x ∈ setAdd ids id ↔ x ∈ ids ∨ x = id := by
  unfold setAdd
  split_ifs with h
  · constructor
    · exact Or.inl
    · rintro (h' | rfl)
      · exact h'
      · exact h
  · simp

theorem recordedInv_submitAnswer {c : Controller} (hinv : c.FreshInv)
    (sel : Option String) (clock : Clock) (random : ℚ) (ok : Bool) :
    (submitAnswer c sel clock random ok).RecordedInv := by
  intro s' hs'
  cases hs : c.currentSession with
  | none =>
    rw [submitAnswer_of_no_session hs] at hs' ⊢
    exact hinv.1 s' hs'
  | some s =>
    cases hq : s.currentQuestion with
    | none =>
      rw [submitAnswer_of_no_question hs hq] at hs' ⊢
      exact hinv.1 s' hs'
    | some question =>
      obtain ⟨t, att, ht, hhist, hatt, _, hids, _, _⟩ :=
        submitAnswer_frame hs hq sel clock random ok
      rw [ht] at hs'
      have := Option.some.inj hs'
      subst this
      obtain ⟨hnodup, hsub⟩ := hinv.1 s hs
      have hfresh := hinv.2 s hs question hq
      have hids' : t.attemptedIds = s.attemptedIds ++ [question.id] := by
        simp [Session.attemptedIds, hhist, hatt]
      rw [hids', hids]
      refine ⟨?_, ?_⟩
      · rw [List.nodup_append]
        refine ⟨hnodup, List.nodup_singleton _, ?_⟩
        intro x hx hx'
        rw [List.mem_singleton.mp hx'] at hx
        exact hfresh (hsub _ hx)
      · intro x hx
        rcases List.mem_append.mp hx with hx | hx
        · exact mem_setAdd.mpr (Or.inl (hsub x hx))
        · exact mem_setAdd.mpr (Or.inr (List.mem_singleton.mp hx))

theorem freshInv_endQuiz_saved {c : Controller} (redirect : Bool) (clock : Clock) :
    (endQuiz c redirect clock true).currentSession = none := by
  unfold endQuiz
  cases hs : c.currentSession with
  | none => simpa using hs
  | some s => simp

theorem freshInv_of_no_session {c : Controller} (h : c.currentSession = none) :
    c.FreshInv := by
  refine ⟨?_, ?_⟩ <;> intro s hs <;> rw [h] at hs <;> exact Option.noConfusion hs

/-- A `nextQuestion` whose `endQuiz` stores the session leaves no session or a
current question that has not been answered in this session. -/
theorem freshInv_nextQuestion {c : Controller} (hinv : c.RecordedInv)
    (clock : Clock) (random : ℚ) : (nextQuestion c clock random true).FreshInv := by
  unfold nextQuestion
  cases hs : c.currentSession with
  | none => exact freshInv_of_no_session hs
  | some s =>
    dsimp only
    split_ifs
    · exact freshInv_of_no_session (freshInv_endQuiz_saved _ _)
    · split
      · exact freshInv_of_no_session (freshInv_endQuiz_saved _ _)
      · next question hsel =>
        refine ⟨?_, ?_⟩
        · intro s' hs'
          have := Option.some.inj hs'
          subst this
          exact hinv s hs
        · intro s' hs' q hq
          have := Option.some.inj hs'
          subst this
          have hq' : question = q := Option.some.inj hq
          subst hq'
          exact (mem_availableOf.mp
            (workingPool_subset_available (selectNextQuestion_some_mem hsel))).2

theorem freshInv_runRounds {c : Controller} (hinv : c.FreshInv) (rounds : List Round) :
    (c.runRounds rounds).FreshInv := by
  induction rounds generalizing c with
  | nil => exact hinv
  | cons r rest ih =>
    exact ih (freshInv_nextQuestion (recordedInv_submitAnswer hinv _ _ _ _) _ _)

/-- The session-exclusion facts read only the active session and the set of
identifiers answered in it. -/
theorem Controller.FreshInv.congr {c c' : Controller}
    (hs : c'.currentSession = c.currentSession)
    (hids : c'.currentSessionAnsweredIds = c.currentSessionAnsweredIds)
    (hinv : c.FreshInv) : c'.FreshInv := by
  refine ⟨?_, ?_⟩
  · intro s h
    rw [hs] at h
    rw [hids]
    exact hinv.1 s h
  · intro s h
    rw [hs] at h
    rw [hids]
    exact hinv.2 s h

/-- A session that `startQuiz` has just started, on the freshly loaded
module, satisfies the session-exclusion facts. -/
theorem freshInv_startQuiz (subject : String) (questions : List Question)
    (attempts : List Attempt) (clock : Clock) (randomThreshold randomSelect : ℚ) :
    (startQuiz Controller.initial subject (Except.ok questions) (Except.ok attempts) clock
      randomThreshold randomSelect true).FreshInv := by
  unfold startQuiz
  dsimp only
  split_ifs
  · exact freshInv_of_no_session rfl
  · refine Controller.FreshInv.congr (c := nextQuestion _ clock randomSelect true) rfl rfl
      (freshInv_nextQuestion ?_ _ _)
    intro s0 hs0
    have := Option.some.inj hs0
    subst this
    exact ⟨List.nodup_nil, fun _ h => absurd h (List.not_mem_nil _)⟩

/-- When every answer is followed by the `nextQuestion` of the timer before
the next answer, no identifier occurs twice in the history of the session. -/
theorem attemptedIds_nodup_of_rounds (subject : String) (questions : List Question)
    (attempts : List Attempt) (clock : Clock) (randomThreshold randomSelect : ℚ)
    (rounds : List Round) (s : Session)
    (hs : ((startQuiz Controller.initial subject (Except.ok questions) (Except.ok attempts)
      clock randomThreshold randomSelect true).runRounds rounds).currentSession = some s) :
    s.attemptedIds.Nodup :=
  ((freshInv_runRounds (freshInv_startQuiz subject questions attempts clock randomThreshold
    randomSelect) rounds).1 s hs).1

/-! ## The session controller -/

/-- C1 (the code at a failing input): after `startQuiz`, an answer followed by
a second `submitAnswer` before the next `nextQuestion` leaves a history in
which the identifier `q1` occurs twice. -/
theorem submitAnswer_twice_repeats_question :
    ∃ s, (Controller.initial.run doubleSubmitRun).currentSession = some s ∧
      s.attemptedIds = ["q1", "q1"] ∧ ¬ s.attemptedIds.Nodup := by
  have h : ((Controller.initial.run doubleSubmitRun).currentSession.map
      Session.attemptedIds) = some ["q1", "q1"] := by decide!
  obtain ⟨s, hs, hids⟩ := Option.map_eq_some'.mp h
  refine ⟨s, hs, hids, ?_⟩
  rw [hids]
  decide

/-- C2: along every sequence of calls made on the freshly loaded module, the
ability of the active session lies in `[1, 3]`; in particular it does after
each `submitAnswer` of a session started by `startQuiz`, whatever the answers
and the draws. -/
theorem ability_within_bounds (calls : List Call) (s : Session)
    (hs : (Controller.initial.run calls).currentSession = some s) :
    1 ≤ s.ability ∧ s.ability ≤ 3 :=
  let h := abilityInv_run abilityInv_initial calls s hs
  ⟨h.1, h.2.1⟩

/-- After two correct answers at a first threshold of two the ability is 3/2. -/
theorem ability_within_bounds_witness :
    ∃ s, (Controller.initial.run sampleRun).currentSession = some s ∧
      s.ability = 3 / 2 ∧ 1 ≤ s.ability ∧ s.ability ≤ 3 := by
  have h : ((Controller.initial.run sampleRun).currentSession.map Session.ability) =
      some (3 / 2) := by decide!
  obtain ⟨s, hs, hab⟩ := Option.map_eq_some'.mp h
  exact ⟨s, hs, hab, ability_within_bounds sampleRun s hs⟩

/-- C3: for the active session of any run of the module and any answer, the
ability after `submitAnswer` is at least the ability before it, and the
`abilityAfter` values recorded in the history never decrease. -/
theorem ability_non_decreasing (calls : List Call) (s : Session)
    (hs : (Controller.initial.run calls).currentSession = some s) :
    s.abilityTrace.Pairwise (fun x y => x ≤ y) ∧
    ∀ (sel : Option String) (clock : Clock) (random : ℚ) (ok : Bool),
      ∃ s', (submitAnswer (Controller.initial.run calls) sel clock random ok).currentSession
          = some s' ∧ s.ability ≤ s'.ability := by
  have hinv := abilityInv_run abilityInv_initial calls s hs
  refine ⟨hinv.2.2.1, ?_⟩
  intro sel clock random ok
  obtain ⟨s', hs', hle, _⟩ := submitAnswer_ability hs hinv sel clock random ok
  exact ⟨s', hs', hle⟩

/-- The abilities recorded along the sample run are 1 and then 3/2. -/
theorem ability_non_decreasing_witness :
    ∃ s, (Controller.initial.run sampleRun).currentSession = some s ∧
      s.abilityTrace = [1, 3 / 2] ∧
      s.abilityTrace.Pairwise (fun x y => x ≤ y) ∧
      ∀ (sel : Option String) (clock : Clock) (random : ℚ) (ok : Bool),
        ∃ s', (submitAnswer (Controller.initial.run sampleRun) sel clock random ok).currentSession
            = some s' ∧ s.ability ≤ s'.ability := by
  have h : ((Controller.initial.run sampleRun).currentSession.map Session.abilityTrace) =
      some [1, 3 / 2] := by decide!
  obtain ⟨s, hs, htr⟩ := Option.map_eq_some'.mp h
  exact ⟨s, hs, htr, ability_non_decreasing sampleRun s hs⟩

/-- C9: for the active session of any run of the module, with a current
question, streak `s`, threshold `t` and ability `a`, a correct answer and a
threshold draw in `[0, 1)` leave: ability `min 3 (a + 1/2)`, streak `0` and a
threshold of 2 or 3 when `s + 1 ≥ t`; ability `a`, streak `s + 1` and threshold
`t` when `s + 1 < t`. -/
theorem submitAnswer_correct_progression (calls : List Call) (s : Session)
    (question : Question) (clock : Clock) (random : ℚ) (ok : Bool)
    (hs : (Controller.initial.run calls).currentSession = some s)
    (hq : s.currentQuestion = some question) (h0 : 0 ≤ random) (h1 : random < 1) :
    ∃ s', (submitAnswer (Controller.initial.run calls) (some question.correctAnswer)
        clock random ok).currentSession = some s' ∧
      ((s.correctStreakAtCurrentLevel : ℤ) + 1 ≥ s.thresholdToNextLevel →
        s'.ability = min 3 (s.ability + 1 / 2) ∧ s'.correctStreakAtCurrentLevel = 0 ∧
        (s'.thresholdToNextLevel = 2 ∨ s'.thresholdToNextLevel = 3)) ∧
      ((s.correctStreakAtCurrentLevel : ℤ) + 1 < s.thresholdToNextLevel →
        s'.ability = s.ability ∧
        s'.correctStreakAtCurrentLevel = s.correctStreakAtCurrentLevel + 1 ∧
        s'.thresholdToNextLevel = s.thresholdToNextLevel) := by
  have hinv := abilityInv_run abilityInv_initial calls s hs
  by_cases hthr : ((s.correctStreakAtCurrentLevel + 1 : Nat) : ℤ) ≥ s.thresholdToNextLevel
  · refine ⟨_, submitAnswer_correct_advance hs hq hthr clock random ok, ?_, ?_⟩
    · intro _
      exact ⟨calculateNewAbility_eq_min hinv.1 question.difficulty, rfl,
        drawThreshold_two_or_three h0 h1⟩
    · intro hlt
      push_cast at hthr
      omega
  · refine ⟨_, submitAnswer_correct_hold hs hq (not_le.mp hthr) clock random ok, ?_, ?_⟩
    · intro hge
      push_cast at hthr
      omega
    · intro _
      exact ⟨rfl, rfl, rfl⟩

/-- The second correct answer of the sample run, at streak one and threshold two. -/
theorem submitAnswer_correct_progression_witness :
    ∃ s, (Controller.initial.run (sampleRun.take 3)).currentSession = some s ∧
      s.currentQuestion = some sampleMedium ∧
      ∃ s', (submitAnswer (Controller.initial.run (sampleRun.take 3))
          (some sampleMedium.correctAnswer) sampleClock (3 / 4) true).currentSession = some s' ∧
        ((s.correctStreakAtCurrentLevel : ℤ) + 1 ≥ s.thresholdToNextLevel →
          s'.ability = min 3 (s.ability + 1 / 2) ∧ s'.correctStreakAtCurrentLevel = 0 ∧
          (s'.thresholdToNextLevel = 2 ∨ s'.thresholdToNextLevel = 3)) ∧
        ((s.correctStreakAtCurrentLevel : ℤ) + 1 < s.thresholdToNextLevel →
          s'.ability = s.ability ∧
          s'.correctStreakAtCurrentLevel = s.correctStreakAtCurrentLevel + 1 ∧
          s'.thresholdToNextLevel = s.thresholdToNextLevel) := by
  have h : ((Controller.initial.run (sampleRun.take 3)).currentSession.map
      Session.currentQuestion) = some (some sampleMedium) := by decide!
  obtain ⟨s, hs, hq⟩ := Option.map_eq_some'.mp h
  exact ⟨s, hs, hq,
    submitAnswer_correct_progression (sampleRun.take 3) s sampleMedium sampleClock (3 / 4) true
      hs hq (by norm_num) (by norm_num)⟩

/-- C10: for an active session with a current question, a skipped answer is
recorded as incorrect, and every answer that is skipped or not the correct
one sets the streak to `0`, leaves the ability, the threshold and the score
as they were, and adds one to the answered count. -/
theorem submitAnswer_incorrect_or_skipped (c : Controller) (s : Session)
    (question : Question) (sel : Option String) (clock : Clock) (random : ℚ) (ok : Bool)
    (hs : c.currentSession = some s) (hq : s.currentQuestion = some question)
    (hsel : sel = none ∨ sel ≠ some question.correctAnswer) :
    ∃ s' att, (submitAnswer c sel clock random ok).currentSession = some s' ∧
      s'.history = s.history ++ [att] ∧ att.questionId = question.id ∧
      att.selectedOption = sel ∧ att.isCorrect = false ∧
      s'.correctStreakAtCurrentLevel = 0 ∧ s'.ability = s.ability ∧
      s'.thresholdToNextLevel = s.thresholdToNextLevel ∧ s'.score = s.score ∧
      s'.totalQuestions = s.totalQuestions + 1 := by
  have hne : sel ≠ some question.correctAnswer := by
    rcases hsel with h | h
    · rw [h]; exact fun hc => Option.noConfusion hc
    · exact h
  exact ⟨_, _, submitAnswer_incorrect hs hq hne clock random ok,
    rfl, rfl, rfl, rfl, rfl, rfl, rfl, rfl, rfl⟩

/-- A skip in the sample session. -/
theorem submitAnswer_incorrect_or_skipped_witness :
    ∃ s' att, (submitAnswer sampleController none sampleClock (1 / 2) true).currentSession
        = some s' ∧
      s'.history = sampleSession.history ++ [att] ∧ att.questionId = sampleEasy.id ∧
      att.selectedOption = none ∧ att.isCorrect = false ∧
      s'.correctStreakAtCurrentLevel = 0 ∧ s'.ability = sampleSession.ability ∧
      s'.thresholdToNextLevel = sampleSession.thresholdToNextLevel ∧
      s'.score = sampleSession.score ∧
      s'.totalQuestions = sampleSession.totalQuestions + 1 :=
  submitAnswer_incorrect_or_skipped sampleController sampleSession sampleEasy none sampleClock
    (1 / 2) true rfl rfl (Or.inl rfl)

end AdaptiveQuiz

namespace AdaptiveQuiz

/-! ## Finishing, guards and storage failures -/

theorem endQuiz_of_no_session {c : Controller} (hs : c.currentSession = none)
    (redirect : Bool) (clock : Clock) (ok : Bool) : endQuiz c redirect clock ok = c := by
  unfold endQuiz
  simp [hs]

theorem nextQuestion_of_no_session {c : Controller} (hs : c.currentSession = none)
    (clock : Clock) (random : ℚ) (ok : Bool) : nextQuestion c clock random ok = c := by
  unfold nextQuestion
  simp [hs]

/-- An `endQuiz` whose `saveSession` resolves: the session is stamped, stored
and shown, and the slot is emptied. -/
theorem endQuiz_saved {c : Controller} {s : Session} (hs : c.currentSession = some s)
    (redirect : Bool) (clock : Clock) :
    endQuiz c redirect clock true =
      { c with
        savedSessions := c.savedSessions ++ [{ s with endedAt := some clock.iso }]
        effects := c.effects ++
          [if redirect then Effect.showSection "courses"
           else Effect.showResults { s with endedAt := some clock.iso }]
        currentSession := none } := by
  unfold endQuiz
  simp [hs]

/-- An `endQuiz` whose `saveSession` rejects: the function stops at the
`await`, after the end time has been stamped. -/
theorem endQuiz_failed {c : Controller} {s : Session} (hs : c.currentSession = some s)
    (redirect : Bool) (clock : Clock) :
    endQuiz c redirect clock false =
      { c with
        currentSession := some { s with endedAt := some clock.iso }
        effects := c.effects ++ [Effect.rejected "endQuiz"] } := by
  unfold endQuiz
  simp [hs]

/-- C11: for an active session that has answered at least `MAX_QUESTIONS`
questions, `nextQuestion` is `endQuiz` whatever the catalogue, the exclusion
sets and the draw are; when the session is stored, the result is the state
with the session stamped with the end time, appended to the stored sessions
and shown as the result, and with the slot empty; no question is rendered and
the current question of the stored session is the one it had. -/
theorem nextQuestion_at_cap (c : Controller) (s : Session) (clock : Clock) (random : ℚ)
    (hs : c.currentSession = some s) (hcap : s.totalQuestions ≥ 10) :
    (∀ ok, nextQuestion c clock random ok = endQuiz c false clock ok) ∧
    nextQuestion c clock random true =
      { c with
        savedSessions := c.savedSessions ++ [{ s with endedAt := some clock.iso }]
        effects := c.effects ++ [Effect.showResults { s with endedAt := some clock.iso }]
        currentSession := none } ∧
    (nextQuestion c clock random true).currentSession = none ∧
    (∀ t ∈ (nextQuestion c clock random true).savedSessions, t ∈ c.savedSessions ∨
      (t.endedAt = some clock.iso ∧ t.currentQuestion = s.currentQuestion ∧
        t.history = s.history)) := by
  have hnext : ∀ ok, nextQuestion c clock random ok = endQuiz c false clock ok := by
    intro ok
    unfold nextQuestion
    simp only [hs]
    rw [if_pos (by simpa [MAX_QUESTIONS] using hcap)]
  have heq := endQuiz_saved hs false clock
  simp only [Bool.false_eq_true, if_false] at heq
  refine ⟨hnext, by rw [hnext, heq], by rw [hnext, heq], ?_⟩
  intro t ht
  rw [hnext, heq] at ht
  rcases List.mem_append.mp ht with h | h
  · exact Or.inl h
  · rw [List.mem_singleton.mp h]
    exact Or.inr ⟨rfl, rfl, rfl⟩

/-- A session at the cap in a state with three unanswered candidates. -/
theorem nextQuestion_at_cap_witness :
    (nextQuestion
        { sampleController with
          currentSession := some { sampleSession with totalQuestions := 10 } }
        sampleClock (1 / 2) true).currentSession = none :=
  (nextQuestion_at_cap
    { sampleController with currentSession := some { sampleSession with totalQuestions := 10 } }
    { sampleSession with totalQuestions := 10 } sampleClock (1 / 2) rfl (by decide)).2.2.1

/-- C15: with no active session `nextQuestion`, `submitAnswer` and `endQuiz`
return the module state as it was, stored records included; so does
`submitAnswer` on an active session without a current question; and an
`endQuiz` after an `endQuiz` that stored the session changes nothing. -/
theorem guards_leave_state_unchanged (c : Controller) :
    (c.currentSession = none →
      ∀ (sel : Option String) (clock : Clock) (random : ℚ) (ok redirect : Bool),
        nextQuestion c clock random ok = c ∧ submitAnswer c sel clock random ok = c ∧
          endQuiz c redirect clock ok = c) ∧
    (∀ s, c.currentSession = some s → s.currentQuestion = none →
      ∀ (sel : Option String) (clock : Clock) (random : ℚ) (ok : Bool),
        submitAnswer c sel clock random ok = c) ∧
    (∀ (redirect redirect' ok : Bool) (clock clock' : Clock),
      endQuiz (endQuiz c redirect clock true) redirect' clock' ok =
        endQuiz c redirect clock true) := by
  refine ⟨?_, ?_, ?_⟩
  · intro hs sel clock random ok redirect
    exact ⟨nextQuestion_of_no_session hs _ _ _, submitAnswer_of_no_session hs _ _ _ _,
      endQuiz_of_no_session hs _ _ _⟩
  · intro s hs hq sel clock random ok
    exact submitAnswer_of_no_question hs hq _ _ _ _
  · intro redirect redirect' ok clock clock'
    exact endQuiz_of_no_session (freshInv_endQuiz_saved redirect clock) _ _ _

/-- The guards on the freshly loaded module and on a session that has no
current question yet. -/
theorem guards_leave_state_unchanged_witness :
    (nextQuestion Controller.initial sampleClock (1 / 2) true = Controller.initial ∧
      submitAnswer Controller.initial (some "A") sampleClock (1 / 2) true = Controller.initial ∧
      endQuiz Controller.initial false sampleClock true = Controller.initial) ∧
    submitAnswer
        { sampleController with
          currentSession := some { sampleSession with currentQuestion := none } }
        (some "A") sampleClock (1 / 2) true =
      { sampleController with
        currentSession := some { sampleSession with currentQuestion := none } } :=
  ⟨(guards_leave_state_unchanged Controller.initial).1 rfl (some "A") sampleClock (1 / 2)
      true false,
    (guards_leave_state_unchanged
      { sampleController with
        currentSession := some { sampleSession with currentQuestion := none } }).2.1
      { sampleSession with currentQuestion := none } rfl rfl (some "A") sampleClock (1 / 2)
      true⟩

end AdaptiveQuiz

namespace AdaptiveQuiz

/-! ## The current-question slot and failed storage calls, in both variants -/

/-- The legacy `submitAnswer` on an active session with a current question
leaves a session whose current question is the one it had. -/
theorem legacy_submitAnswer_frame {c : Legacy.Controller} {s : Legacy.Session}
    {question : Question} (hs : c.currentSession = some s)
    (hq : s.currentQuestion = some question) (sel : Option String) (clock : Clock)
    (ok : Bool) :
    ∃ s' att, (Legacy.submitAnswer c sel clock ok).currentSession = some s' ∧
      s'.history = s.history ++ [att] ∧ att.questionId = question.id ∧
      s'.currentQuestion = some question := by
  unfold Legacy.submitAnswer
  simp only [hs, hq]
  split_ifs <;> exact ⟨_, _, rfl, rfl, rfl, rfl⟩

/-- The legacy `endQuiz` whose `saveSession` rejects. -/
theorem legacy_endQuiz_failed {c : Legacy.Controller} {s : Legacy.Session}
    (hs : c.currentSession = some s) (redirect : Bool) (clock : Clock) :
    Legacy.endQuiz c redirect clock false =
      { c with
        currentSession := some { s with endedAt := some clock.iso }
        effects := c.effects ++ [Legacy.Effect.rejected "endQuiz"] } := by
  unfold Legacy.endQuiz
  simp [hs]

/-- C12 (the code at a failing input): after `startQuiz` and one answer the
current-question slot still holds the answered question `sampleEasy`, and a
second `submitAnswer` before any `nextQuestion` passes the guard and records a
second attempt.  The same in the legacy variant. -/
theorem submitAnswer_slot_not_cleared :
    (answeredOnce.currentSession.map Session.currentQuestion = some (some sampleEasy) ∧
      answeredOnce.currentSession.map Session.attemptedIds = some ["q1"] ∧
      (submitAnswer answeredOnce none sampleClock (1 / 2) true).currentSession.map
        Session.attemptedIds = some ["q1", "q1"]) ∧
    (Legacy.answeredOnce.currentSession.map Legacy.Session.currentQuestion =
        some (some sampleEasy) ∧
      Legacy.answeredOnce.currentSession.map
        (fun s => s.history.map (fun a => a.questionId)) = some ["q1"] ∧
      (Legacy.submitAnswer Legacy.answeredOnce none sampleClock true).currentSession.map
        (fun s => s.history.map (fun a => a.questionId)) = some ["q1", "q1"]) := by
  decide!

/-- For every active session with a current question, in both variants,
`submitAnswer` leaves an active session whose current-question slot holds the
question that was just answered. -/
theorem submitAnswer_keeps_current_question :
    (∀ (c : Controller) (s : Session) (question : Question) (sel : Option String)
        (clock : Clock) (random : ℚ) (ok : Bool),
      c.currentSession = some s → s.currentQuestion = some question →
      ∃ s', (submitAnswer c sel clock random ok).currentSession = some s' ∧
        s'.currentQuestion = some question) ∧
    (∀ (c : Legacy.Controller) (s : Legacy.Session) (question : Question)
        (sel : Option String) (clock : Clock) (ok : Bool),
      c.currentSession = some s → s.currentQuestion = some question →
      ∃ s', (Legacy.submitAnswer c sel clock ok).currentSession = some s' ∧
        s'.currentQuestion = some question) := by
  refine ⟨?_, ?_⟩
  · intro c s question sel clock random ok hs hq
    obtain ⟨s', _, hs', _, _, hq', _⟩ := submitAnswer_frame hs hq sel clock random ok
    exact ⟨s', hs', hq'⟩
  · intro c s question sel clock ok hs hq
    obtain ⟨s', _, hs', _, _, hq'⟩ := legacy_submitAnswer_frame hs hq sel clock ok
    exact ⟨s', hs', hq'⟩

/-- C13 (the code at a failing input): when the read of the questions fails,
the active-session slot is what it was; but when the questions are read and
the read of the past attempts fails, `startQuiz` on the freshly loaded module
reports the error and leaves the session it had just created in the slot.
The same in the legacy variant. -/
theorem startQuiz_attempts_failure_keeps_new_session :
    (∀ (c : Controller) (subject err : String) (attempts : Except String (List Attempt))
        (clock : Clock) (rt rs : ℚ) (ok : Bool),
      (startQuiz c subject (Except.error err) attempts clock rt rs ok).currentSession =
        c.currentSession) ∧
    (Controller.initial.currentSession = none ∧
      (startQuiz Controller.initial "Math" (Except.ok [sampleEasy])
          (Except.error "read failed") sampleClock (1 / 2) (1 / 2) true).currentSession =
        some
          { id := "1700000000000", subject := "Math",
            startedAt := "2023-11-14T22:13:20.000Z", ability := 1, score := 0,
            totalQuestions := 0, history := [], correctStreakAtCurrentLevel := 0,
            thresholdToNextLevel := 3, currentQuestion := none, endedAt := none } ∧
      (startQuiz Controller.initial "Math" (Except.ok [sampleEasy])
          (Except.error "read failed") sampleClock (1 / 2) (1 / 2) true).effects =
        [Effect.consoleError "Failed to start quiz: read failed",
          Effect.alert "Error starting quiz."]) ∧
    (Legacy.Controller.initial.currentSession = none ∧
      ∀ engineSort : Legacy.EngineSort,
        (Legacy.startQuiz engineSort Legacy.Controller.initial "Math" (Except.ok [sampleEasy])
            (Except.error "read failed") sampleClock (1 / 2) true).currentSession =
          some
            { id := "1700000000000", subject := "Math",
              startedAt := "2023-11-14T22:13:20.000Z", ability := 1, score := 0,
              totalQuestions := 0, history := [], currentQuestion := none,
              endedAt := none }) := by
  refine ⟨fun _ _ _ _ _ _ _ _ => rfl, ?_, rfl, fun _ => rfl⟩
  decide!

/-- C14 (the claim at a concrete input): after an `endQuiz` whose
`saveSession` rejects, the slot is not empty, in either variant. -/
theorem endQuiz_failure_keeps_session :
    (endQuiz sampleController false sampleClock false).currentSession ≠ none ∧
    (Legacy.endQuiz Legacy.sampleController false sampleClock false).currentSession ≠ none := by
  decide!

/-- C14, amended: for every active session, in both variants, when
`saveSession` rejects during `endQuiz`, the failure shows as the rejection of
the promise of `endQuiz` and nothing else changes but the end time of the
session: the session stays in the slot, no record is stored and no screen is
shown. -/
theorem endQuiz_failure_frame :
    (∀ (c : Controller) (s : Session) (redirect : Bool) (clock : Clock),
      c.currentSession = some s →
      endQuiz c redirect clock false =
        { c with
          currentSession := some { s with endedAt := some clock.iso }
          effects := c.effects ++ [Effect.rejected "endQuiz"] }) ∧
    (∀ (c : Legacy.Controller) (s : Legacy.Session) (redirect : Bool) (clock : Clock),
      c.currentSession = some s →
      Legacy.endQuiz c redirect clock false =
        { c with
          currentSession := some { s with endedAt := some clock.iso }
          effects := c.effects ++ [Legacy.Effect.rejected "endQuiz"] }) :=
  ⟨fun _ _ redirect clock hs => endQuiz_failed hs redirect clock,
    fun _ _ redirect clock hs => legacy_endQuiz_failed hs redirect clock⟩

/-- A failed `endQuiz` on the sample session of each variant. -/
theorem endQuiz_failure_frame_witness :
    (endQuiz sampleController false sampleClock false).savedSessions = [] ∧
    (endQuiz sampleController false sampleClock false).currentSession =
      some { sampleSession with endedAt := some sampleClock.iso } ∧
    (Legacy.endQuiz Legacy.sampleController false sampleClock false).currentSession =
      some { Legacy.sampleSession with endedAt := some sampleClock.iso } :=
  ⟨by rw [endQuiz_failure_frame.1 sampleController sampleSession false sampleClock rfl]; rfl,
    by rw [endQuiz_failure_frame.1 sampleController sampleSession false sampleClock rfl],
    by rw [endQuiz_failure_frame.2 Legacy.sampleController Legacy.sampleSession false
      sampleClock rfl]⟩

end AdaptiveQuiz

namespace AdaptiveQuiz

/-! ## Thresholds, streaks and the pace of the ability -/

theorem calculateNewAbility_half_step {k : Nat} (hk : k ≤ 4) (d : String) :
    calculateNewAbility (1 + (k : ℚ) / 2) true d = 1 + ((min (k + 1) 4 : Nat) : ℚ) / 2 := by
  unfold calculateNewAbility
  interval_cases k <;> norm_num

/-- What `submitAnswer` with a threshold draw in `[0, 1)` does to the
threshold and pace facts of the active session. -/
theorem submitAnswer_pace {c : Controller} {s : Session}
    (hs : c.currentSession = some s) (hst : s.StreakInv) (hp : s.PaceInv)
    (sel : Option String) (clock : Clock) {random : ℚ} (h0 : 0 ≤ random) (h1 : random < 1)
    (ok : Bool) :
    ∃ s', (submitAnswer c sel clock random ok).currentSession = some s' ∧
      s'.StreakInv ∧ s'.PaceInv := by
  obtain ⟨hthr, hlt⟩ := hst
  obtain ⟨hlen, k, hab, hk, hpace⟩ := hp
  cases hq : s.currentQuestion with
  | none =>
    rw [submitAnswer_of_no_question hs hq]
    exact ⟨s, hs, ⟨hthr, hlt⟩, hlen, k, hab, hk, hpace⟩
  | some question =>
    by_cases hsel : sel = some question.correctAnswer
    · subst hsel
      by_cases hge : ((s.correctStreakAtCurrentLevel + 1 : Nat) : ℤ) ≥ s.thresholdToNextLevel
      · refine ⟨_, submitAnswer_correct_advance hs hq hge clock random ok, ?_, ?_⟩
        · refine ⟨drawThreshold_two_or_three h0 h1, ?_⟩
          rcases drawThreshold_two_or_three h0 h1 with h | h <;>
            simp only [h] <;> norm_num
        · refine ⟨by simp [hlen], min (k + 1) 4, ?_, by omega, ?_⟩
          · simp only [hab]
            exact calculateNewAbility_half_step hk question.difficulty
          · push_cast at hge
            simp only
            omega
      · refine ⟨_, submitAnswer_correct_hold hs hq (not_le.mp hge) clock random ok, ?_, ?_⟩
        · refine ⟨hthr, ?_⟩
          exact not_le.mp hge
        · refine ⟨by simp [hlen], k, hab, hk, ?_⟩
          simp only
          omega
    · refine ⟨_, submitAnswer_incorrect hs hq hsel clock random ok, ?_, ?_⟩
      · refine ⟨hthr, ?_⟩
        rcases hthr with h | h <;> simp only [h] <;> norm_num
      · refine ⟨by simp [hlen], k, hab, hk, ?_⟩
        simp only
        omega

theorem paceInv_submitAnswer {c : Controller} (hinv : c.PaceInv)
    (sel : Option String) (clock : Clock) {random : ℚ} (h0 : 0 ≤ random) (h1 : random < 1)
    (ok : Bool) : (submitAnswer c sel clock random ok).PaceInv := by
  intro s' hs'
  cases hs : c.currentSession with
  | none =>
    rw [submitAnswer_of_no_session hs] at hs'
    exact hinv s' hs'
  | some s =>
    obtain ⟨t, ht, hst, hp⟩ :=
      submitAnswer_pace hs (hinv s hs).1 (hinv s hs).2 sel clock h0 h1 ok
    rw [ht] at hs'
    exact Option.some.inj hs' ▸ ⟨hst, hp⟩

theorem paceInv_endQuiz {c : Controller} (hinv : c.PaceInv)
    (redirect : Bool) (clock : Clock) (ok : Bool) :
    (endQuiz c redirect clock ok).PaceInv := by
  intro s' hs'
  unfold endQuiz at hs'
  cases hs : c.currentSession with
  | none =>
    rw [hs] at hs'
    exact hinv s' hs'
  | some s =>
    rw [hs] at hs'
    dsimp only at hs'
    split_ifs at hs'
    have := Option.some.inj hs'
    subst this
    exact hinv s hs

theorem paceInv_nextQuestion {c : Controller} (hinv : c.PaceInv)
    (clock : Clock) (random : ℚ) (ok : Bool) :
    (nextQuestion c clock random ok).PaceInv := by
  unfold nextQuestion
  cases hs : c.currentSession with
  | none => exact hinv
  | some s =>
    dsimp only
    split_ifs
    · exact paceInv_endQuiz hinv _ _ _
    · split
      · exact paceInv_endQuiz hinv _ _ _
      · intro s' hs'
        have := Option.some.inj hs'
        subst this
        exact hinv s hs

theorem paceInv_startQuiz {c : Controller} (hinv : c.PaceInv) (subject : String)
    (questions : Except String (List Question)) (attempts : Except String (List Attempt))
    (clock : Clock) {randomThreshold : ℚ} (h0 : 0 ≤ randomThreshold)
    (h1 : randomThreshold < 1) (randomSelect : ℚ) (ok : Bool) :
    (startQuiz c subject questions attempts clock randomThreshold randomSelect ok).PaceInv := by
  have hfresh : Session.StreakInv
      { id := clock.now, subject := subject, startedAt := clock.iso, ability := 1, score := 0,
        totalQuestions := 0, history := [], correctStreakAtCurrentLevel := 0,
        thresholdToNextLevel := drawThreshold randomThreshold, currentQuestion := none,
        endedAt := none } ∧
      Session.PaceInv
      { id := clock.now, subject := subject, startedAt := clock.iso, ability := 1, score := 0,
        totalQuestions := 0, history := [], correctStreakAtCurrentLevel := 0,
        thresholdToNextLevel := drawThreshold randomThreshold, currentQuestion := none,
        endedAt := none } := by
    refine ⟨⟨drawThreshold_two_or_three h0 h1, ?_⟩, rfl, 0, by norm_num, by norm_num, ?_⟩
    · rcases drawThreshold_two_or_three h0 h1 with h | h <;> simp only [h] <;> norm_num
    · simp
  unfold startQuiz
  cases questions with
  | error err => exact hinv
  | ok qs =>
    dsimp only
    split_ifs
    · exact hinv
    · cases attempts with
      | error err =>
        intro s' hs'
        have := Option.some.inj hs'
        subst this
        exact hfresh
      | ok allAttempts =>
        dsimp only
        intro s' hs'
        refine paceInv_nextQuestion ?_ clock randomSelect ok s' hs'
        intro s0 hs0
        have := Option.some.inj hs0
        subst this
        exact hfresh

theorem paceInv_run {c : Controller} (hinv : c.PaceInv) (calls : List Call)
    (hvalid : ∀ call ∈ calls, call.ValidDraws) : (c.run calls).PaceInv := by
  induction calls generalizing c with
  | nil => exact hinv
  | cons call rest ih =>
    apply ih _ (fun x hx => hvalid x (List.mem_cons_of_mem _ hx))
    have hv := hvalid call (List.mem_cons_self _ _)
    cases call with
    | startQuiz subject questions attempts clock rt rs ok =>
      exact paceInv_startQuiz hinv _ _ _ _ hv.1 hv.2 _ _
    | nextQuestion clock random ok => exact paceInv_nextQuestion hinv _ _ _
    | submitAnswer sel clock random ok => exact paceInv_submitAnswer hinv _ _ hv.1 hv.2 _
    | endQuiz redirect clock ok => exact paceInv_endQuiz hinv _ _ _

theorem paceInv_initial : Controller.initial.PaceInv := by
  intro s hs
  exact Option.noConfusion hs

end AdaptiveQuiz

namespace AdaptiveQuiz

theorem sampleRun_validDraws : ∀ call ∈ sampleRun, call.ValidDraws := by
  intro call hc
  simp only [sampleRun, List.mem_cons, List.mem_singleton, List.not_mem_nil, or_false] at hc
  rcases hc with rfl | rfl | rfl | rfl | rfl <;> simp only [Call.ValidDraws] <;> norm_num

/-- C18: along every sequence of calls made on the freshly loaded module with
threshold draws in `[0, 1)`, so after `startQuiz` and after every
`submitAnswer`, the threshold of the active session is 2 or 3 and its streak
is at least 0 and below the threshold; the streak is never 3. -/
theorem threshold_and_streak_bounds (calls : List Call)
    (hvalid : ∀ call ∈ calls, call.ValidDraws) (s : Session)
    (hs : (Controller.initial.run calls).currentSession = some s) :
    (s.thresholdToNextLevel = 2 ∨ s.thresholdToNextLevel = 3) ∧
    (0 : ℤ) ≤ (s.correctStreakAtCurrentLevel : ℤ) ∧
    (s.correctStreakAtCurrentLevel : ℤ) < s.thresholdToNextLevel ∧
    s.correctStreakAtCurrentLevel < 3 := by
  obtain ⟨⟨hthr, hlt⟩, _⟩ := paceInv_run paceInv_initial calls hvalid s hs
  refine ⟨hthr, Int.natCast_nonneg _, hlt, ?_⟩
  rcases hthr with h | h <;> rw [h] at hlt <;> omega

/-- The sample run ends with a streak of 0 and a threshold of 3. -/
theorem threshold_and_streak_bounds_witness :
    ∃ s, (Controller.initial.run sampleRun).currentSession = some s ∧
      (s.thresholdToNextLevel = 2 ∨ s.thresholdToNextLevel = 3) ∧
      (0 : ℤ) ≤ (s.correctStreakAtCurrentLevel : ℤ) ∧
      (s.correctStreakAtCurrentLevel : ℤ) < s.thresholdToNextLevel ∧
      s.correctStreakAtCurrentLevel < 3 := by
  have h : ((Controller.initial.run sampleRun).currentSession.map
      Session.thresholdToNextLevel) = some 3 := by decide!
  obtain ⟨s, hs, _⟩ := Option.map_eq_some'.mp h
  exact ⟨s, hs, threshold_and_streak_bounds sampleRun sampleRun_validDraws s hs⟩

/-- C19: along every sequence of calls made on the freshly loaded module with
threshold draws in `[0, 1)`, the active session has one attempt per counted
answer and, with `n` the number of its attempts, its ability is one of 1, 1.5,
2, 2.5, 3 and is at most `1 + 0.5 * floor (n / 2)`; so with fewer than 6
attempts the ability is below 2.5 and the target is not hard. -/
theorem ability_pace (calls : List Call) (hvalid : ∀ call ∈ calls, call.ValidDraws)
    (s : Session) (hs : (Controller.initial.run calls).currentSession = some s) :
    (s.ability = 1 ∨ s.ability = 3 / 2 ∨ s.ability = 2 ∨ s.ability = 5 / 2 ∨ s.ability = 3) ∧
    s.history.length = s.totalQuestions ∧
    s.ability ≤ 1 + (1 / 2) * ((s.history.length / 2 : Nat) : ℚ) ∧
    (s.history.length < 6 → s.ability < 5 / 2 ∧ targetDifficulty s.ability ≠ "hard") := by
  obtain ⟨_, hlen, k, hab, hk, hpace⟩ := paceInv_run paceInv_initial calls hvalid s hs
  have hk2 : k ≤ s.history.length / 2 := by omega
  have hle : s.ability ≤ 1 + (1 / 2) * ((s.history.length / 2 : Nat) : ℚ) := by
    have : (k : ℚ) ≤ ((s.history.length / 2 : Nat) : ℚ) := by exact_mod_cast hk2
    rw [hab]
    linarith
  refine ⟨?_, hlen, hle, ?_⟩
  · rw [hab]
    interval_cases k <;> norm_num
  · intro hn
    have hk3 : k ≤ 2 := by omega
    have hlt : s.ability < 5 / 2 := by
      have : (k : ℚ) ≤ 2 := by exact_mod_cast hk3
      rw [hab]
      linarith
    refine ⟨hlt, ?_⟩
    unfold targetDifficulty
    split_ifs <;> decide

/-- The sample run: two attempts and an ability of 1.5. -/
theorem ability_pace_witness :
    ∃ s, (Controller.initial.run sampleRun).currentSession = some s ∧
      s.history.length = 2 ∧ s.ability = 3 / 2 ∧
      s.ability ≤ 1 + (1 / 2) * ((s.history.length / 2 : Nat) : ℚ) ∧
      (s.history.length < 6 → s.ability < 5 / 2 ∧ targetDifficulty s.ability ≠ "hard") := by
  have h : ((Controller.initial.run sampleRun).currentSession.map
      (fun s => (s.history.length, s.ability))) = some (2, 3 / 2) := by decide!
  obtain ⟨s, hs, hpair⟩ := Option.map_eq_some'.mp h
  have hp := ability_pace sampleRun sampleRun_validDraws s hs
  exact ⟨s, hs, (Prod.mk.inj hpair).1, (Prod.mk.inj hpair).2, hp.2.2.1, hp.2.2.2⟩

/-- C16 (the claim at a concrete input): in the run `bandRun` the session has
ability 1.5, and the correct answer that brings its streak to the threshold
raises the ability to 2: the target was medium and is still medium, not the
next label. -/
theorem advancement_can_keep_band :
    ∃ s s', (Controller.initial.run bandRun).currentSession = some s ∧
      s.ability < 5 / 2 ∧ s.currentQuestion = some sampleHard ∧
      (s.correctStreakAtCurrentLevel : ℤ) + 1 ≥ s.thresholdToNextLevel ∧
      (submitAnswer (Controller.initial.run bandRun) (some sampleHard.correctAnswer)
        sampleClock (1 / 4) true).currentSession = some s' ∧
      targetDifficulty s.ability = "medium" ∧ targetDifficulty s'.ability = "medium" ∧
      rankOf (targetDifficulty s'.ability) ≠ rankOf (targetDifficulty s.ability) + 1 := by
  have h : ((Controller.initial.run bandRun).currentSession.map
      (fun s => (s.ability, s.correctStreakAtCurrentLevel, s.thresholdToNextLevel,
        s.currentQuestion))) = some (3 / 2, 1, 2, some sampleHard) := by decide!
  have h' : ((submitAnswer (Controller.initial.run bandRun) (some sampleHard.correctAnswer)
      sampleClock (1 / 4) true).currentSession.map Session.ability) = some 2 := by decide!
  obtain ⟨s, hs, htuple⟩ := Option.map_eq_some'.mp h
  obtain ⟨s', hs', hab'⟩ := Option.map_eq_some'.mp h'
  have hab : s.ability = 3 / 2 := (Prod.mk.inj htuple).1
  have hstreak : s.correctStreakAtCurrentLevel = 1 := (Prod.mk.inj (Prod.mk.inj htuple).2).1
  have hthr : s.thresholdToNextLevel = 2 :=
    (Prod.mk.inj (Prod.mk.inj (Prod.mk.inj htuple).2).2).1
  have hq : s.currentQuestion = some sampleHard :=
    (Prod.mk.inj (Prod.mk.inj (Prod.mk.inj htuple).2).2).2
  have ht : targetDifficulty s.ability = "medium" := by
    rw [hab]; unfold targetDifficulty; norm_num
  have ht' : targetDifficulty s'.ability = "medium" := by
    rw [hab']; unfold targetDifficulty; norm_num
  refine ⟨s, s', hs, by rw [hab]; norm_num, hq, by rw [hstreak, hthr]; norm_num, hs', ht, ht',
    ?_⟩
  rw [ht, ht']
  decide

/-- C16, amended: for the active session of any run of the module with an
ability below 2.5, a correct answer that brings the streak up to the threshold
raises the ability by exactly 0.5; the target difficulty moves to the next
label when the old ability is below 1.5 or at least 2, and is medium before
and after when the old ability is at least 1.5 and below 2. -/
theorem advancement_band_step (calls : List Call) (s : Session) (question : Question)
    (clock : Clock) (random : ℚ) (ok : Bool)
    (hs : (Controller.initial.run calls).currentSession = some s)
    (hq : s.currentQuestion = some question) (hlt : s.ability < 5 / 2)
    (hge : (s.correctStreakAtCurrentLevel : ℤ) + 1 ≥ s.thresholdToNextLevel) :
    ∃ s', (submitAnswer (Controller.initial.run calls) (some question.correctAnswer)
        clock random ok).currentSession = some s' ∧
      s'.ability = s.ability + 1 / 2 ∧
      ((s.ability < 3 / 2 ∨ 2 ≤ s.ability) →
        rankOf (targetDifficulty s'.ability) = rankOf (targetDifficulty s.ability) + 1) ∧
      ((3 / 2 ≤ s.ability ∧ s.ability < 2) →
        targetDifficulty s.ability = "medium" ∧ targetDifficulty s'.ability = "medium") := by
  have hinv := abilityInv_run abilityInv_initial calls s hs
  have hge' : ((s.correctStreakAtCurrentLevel + 1 : Nat) : ℤ) ≥ s.thresholdToNextLevel := by
    push_cast
    exact hge
  have hnew : calculateNewAbility s.ability true question.difficulty = s.ability + 1 / 2 := by
    rw [calculateNewAbility_eq_min hinv.1]
    exact min_eq_right (by linarith)
  refine ⟨_, submitAnswer_correct_advance hs hq hge' clock random ok, hnew, ?_, ?_⟩
  · intro hcase
    simp only [hnew]
    unfold targetDifficulty
    rcases hcase with h | h
    · rw [if_pos h, if_neg (by linarith [hinv.1]), if_pos (by linarith)]
      decide
    · rw [if_neg (by linarith), if_pos hlt, if_neg (by linarith), if_neg (by linarith)]
      decide
  · rintro ⟨h1, h2⟩
    simp only [hnew]
    unfold targetDifficulty
    refine ⟨?_, ?_⟩
    · rw [if_neg (by linarith), if_pos hlt]
    · rw [if_neg (by linarith), if_pos (by linarith)]

/-- The second correct answer of the sample run: from easy to medium. -/
theorem advancement_band_step_witness :
    ∃ s, (Controller.initial.run (sampleRun.take 3)).currentSession = some s ∧
      s.ability = 1 ∧
      ∃ s', (submitAnswer (Controller.initial.run (sampleRun.take 3))
          (some sampleMedium.correctAnswer) sampleClock (3 / 4) true).currentSession = some s' ∧
        s'.ability = s.ability + 1 / 2 ∧
        ((s.ability < 3 / 2 ∨ 2 ≤ s.ability) →
          rankOf (targetDifficulty s'.ability) = rankOf (targetDifficulty s.ability) + 1) ∧
        ((3 / 2 ≤ s.ability ∧ s.ability < 2) →
          targetDifficulty s.ability = "medium" ∧ targetDifficulty s'.ability = "medium") := by
  have h : ((Controller.initial.run (sampleRun.take 3)).currentSession.map
      (fun s => (s.ability, s.correctStreakAtCurrentLevel, s.thresholdToNextLevel,
        s.currentQuestion))) = some (1, 1, 2, some sampleMedium) := by decide!
  obtain ⟨s, hs, htuple⟩ := Option.map_eq_some'.mp h
  have hab : s.ability = 1 := (Prod.mk.inj htuple).1
  have hstreak : s.correctStreakAtCurrentLevel = 1 := (Prod.mk.inj (Prod.mk.inj htuple).2).1
  have hthr : s.thresholdToNextLevel = 2 :=
    (Prod.mk.inj (Prod.mk.inj (Prod.mk.inj htuple).2).2).1
  have hq : s.currentQuestion = some sampleMedium :=
    (Prod.mk.inj (Prod.mk.inj (Prod.mk.inj htuple).2).2).2
  exact ⟨s, hs, hab,
    advancement_band_step (sampleRun.take 3) s sampleMedium sampleClock (3 / 4) true hs hq
      (by rw [hab]; norm_num) (by rw [hstreak, hthr]; norm_num)⟩

end AdaptiveQuiz

namespace AdaptiveQuiz

/-! ## The legacy selector: the five best matches -/

theorem DIFFICULTY_MAP_of_mem {d : String} (h : d ∈ difficultyOrder) :
    ∃ n : Nat, DIFFICULTY_MAP d = some n := by
  simp only [difficultyOrder, List.mem_cons, List.mem_singleton, List.not_mem_nil,
    or_false] at h
  rcases h with rfl | rfl | rfl
  · exact ⟨1, by decide⟩
  · exact ⟨2, by decide⟩
  · exact ⟨3, by decide⟩

/-- On questions that carry a label of `DIFFICULTY_MAP`, the comparator
orders by the key: distance to the ability, then rank. -/
theorem legacy_sortsBefore_iff {a : ℚ} {q r : Question}
    (hq : q.difficulty ∈ difficultyOrder) (hr : r.difficulty ∈ difficultyOrder) :
    Legacy.sortsBefore a q r ↔ Legacy.sortKey a q ≤ Legacy.sortKey a r := by
  obtain ⟨n, hn⟩ := DIFFICULTY_MAP_of_mem hq
  obtain ⟨m, hm⟩ := DIFFICULTY_MAP_of_mem hr
  unfold Legacy.sortsBefore Legacy.compareQuestions Legacy.sortKey
  simp only [hn, hm, Option.getD_some]
  rw [Prod.Lex.le_iff]
  by_cases hd : |(n : ℚ) - a| = |(m : ℚ) - a|
  · simp only [hd, ne_eq, not_true_eq_false, if_false, lt_self_iff_false, true_and, false_or]
    exact sub_nonpos
  · simp only [ne_eq, hd, not_false_eq_true, if_true, false_and, or_false]
    rw [sub_nonpos]
    exact ⟨fun h => lt_of_le_of_ne h hd, fun h => h.le⟩

/-- On questions that carry a label of `DIFFICULTY_MAP`, the order of the
claim is the strict order of the key. -/
theorem legacy_strictlyBetter_iff {a : ℚ} {q r : Question}
    (hq : q.difficulty ∈ difficultyOrder) (hr : r.difficulty ∈ difficultyOrder) :
    Legacy.strictlyBetter a q r ↔ Legacy.sortKey a q < Legacy.sortKey a r := by
  obtain ⟨n, hn⟩ := DIFFICULTY_MAP_of_mem hq
  obtain ⟨m, hm⟩ := DIFFICULTY_MAP_of_mem hr
  unfold Legacy.strictlyBetter Legacy.sortKey
  simp only [hn, hm, Option.getD_some]
  rw [Prod.Lex.lt_iff]
  simp only [Nat.cast_lt]

/-- On a pool whose questions carry labels of `DIFFICULTY_MAP` the sort is the
stable sort by the comparator, whatever the engine. -/
theorem legacy_sortPool_eq (engineSort : Legacy.EngineSort) (a : ℚ) (pool : List Question)
    (hlab : ∀ q ∈ pool, q.difficulty ∈ difficultyOrder) :
    Legacy.sortPool engineSort a pool = pool.insertionSort (Legacy.sortsBefore a) := by
  unfold Legacy.sortPool
  rw [if_pos]
  rw [List.all_eq_true]
  intro q hq
  obtain ⟨n, hn⟩ := DIFFICULTY_MAP_of_mem (hlab q hq)
  rw [hn]
  rfl

/-- The sorted pool is ordered by the key when every question carries a
label of `DIFFICULTY_MAP`. -/
theorem legacy_sortPool_pairwise (engineSort : Legacy.EngineSort) (a : ℚ)
    (pool : List Question) (hlab : ∀ q ∈ pool, q.difficulty ∈ difficultyOrder) :
    (Legacy.sortPool engineSort a pool).Pairwise
      (fun q r => Legacy.sortKey a q ≤ Legacy.sortKey a r) := by
  rw [legacy_sortPool_eq engineSort a pool hlab]
  have hmap := List.map_insertionSort (Legacy.sortsBefore a)
    (fun (x y : ℚ ×ₗ ℚ) => x ≤ y) (Legacy.sortKey a) pool
    (fun q hq r hr => legacy_sortsBefore_iff (hlab q hq) (hlab r hr))
  have hs := List.sorted_insertionSort (fun (x y : ℚ ×ₗ ℚ) => x ≤ y)
    (pool.map (Legacy.sortKey a))
  rw [← hmap] at hs
  exact List.pairwise_map.mp hs

theorem legacy_sortPool_perm (engineSort : Legacy.EngineSort) (a : ℚ) (pool : List Question)
    (hlab : ∀ q ∈ pool, q.difficulty ∈ difficultyOrder) :
    (Legacy.sortPool engineSort a pool).Perm pool := by
  rw [legacy_sortPool_eq engineSort a pool hlab]
  exact List.perm_insertionSort _ pool

/-- In a list ordered by a key, fewer than `k + 1` members have a key
strictly below that of the member at position `k`. -/
theorem length_filter_lt_le {α β : Type} [LinearOrder β] (key : α → β) (l : List α)
    (hl : l.Pairwise (fun x y => key x ≤ key y)) (k : Nat) (r : α) (hr : l[k]? = some r) :
    (l.filter (fun q => decide (key q < key r))).length ≤ k := by
  obtain ⟨hk, hget⟩ := List.getElem?_eq_some.mp hr
  have hdrop : l.drop k = r :: l.drop (k + 1) := by
    rw [← hget]
    exact List.drop_eq_getElem_cons hk
  have hpw : (l.drop k).Pairwise (fun x y => key x ≤ key y) :=
    hl.sublist (List.drop_sublist k l)
  rw [hdrop] at hpw
  have hnil : (l.drop k).filter (fun q => decide (key q < key r)) = [] := by
    rw [List.filter_eq_nil_iff]
    intro q hq
    rw [hdrop] at hq
    simp only [decide_eq_true_eq, not_lt]
    rcases List.mem_cons.mp hq with rfl | hq
    · exact le_refl _
    · exact (List.pairwise_cons.mp hpw).1 q hq
  calc (l.filter (fun q => decide (key q < key r))).length
      = ((l.take k ++ l.drop k).filter (fun q => decide (key q < key r))).length := by
        rw [List.take_append_drop]
    _ = ((l.take k).filter (fun q => decide (key q < key r))).length := by
        rw [List.filter_append, hnil, List.append_nil]
    _ ≤ (l.take k).length := List.length_filter_le _ _
    _ ≤ k := by rw [List.length_take]; exact min_le_left _ _

/-- Past step 1 and on a partition whose questions carry labels of
`DIFFICULTY_MAP`, a draw in `[0, 1)` makes the legacy `selectNextQuestion`
return the member of the sorted pool at a position below five. -/
theorem legacy_selectNextQuestion_spec (engineSort : Legacy.EngineSort)
    (cands : List Question) (excl : List String) (a : ℚ)
    (past : List String) {random : ℚ} (h0 : 0 ≤ random) (h1 : random < 1)
    (hav : availableOf cands excl ≠ [])
    (hlab : ∀ q ∈ partitionOf (availableOf cands excl) past, q.difficulty ∈ difficultyOrder) :
    ∃ (k : Nat) (r : Question), k < 5 ∧
      (Legacy.sortPool engineSort a (partitionOf (availableOf cands excl) past))[k]? = some r ∧
      Legacy.selectNextQuestion engineSort cands excl a past random = some r := by
  have hpool : partitionOf (availableOf cands excl) past ≠ [] := partitionOf_ne_nil hav
  generalize hS : Legacy.sortPool engineSort a (partitionOf (availableOf cands excl) past) = S
  have hlen : 0 < S.length := by
    rw [← hS, (legacy_sortPool_perm engineSort a _ hlab).length_eq]
    exact List.length_pos.mpr hpool
  have htop : 0 < (S.take 5).length := by
    rw [List.length_take]
    omega
  obtain ⟨k, hk, hklt⟩ := floorOfProduct_spec h0 h1 htop
  have hk5 : k < 5 := by
    rw [List.length_take] at hklt
    omega
  have hsel : Legacy.selectNextQuestion engineSort cands excl a past random =
      (S.take 5)[k]? := by
    have hne : (availableOf cands excl).length ≠ 0 := fun hc =>
      hav (List.eq_nil_of_length_eq_zero hc)
    unfold Legacy.selectNextQuestion
    dsimp only
    rw [if_neg hne, hS, hk]
    rfl
  refine ⟨k, (S.take 5)[k], hk5, ?_, ?_⟩
  · rw [← List.getElem?_take_of_lt hk5]
    exact List.getElem?_eq_getElem hklt
  · rw [hsel]
    exact List.getElem?_eq_getElem hklt

end AdaptiveQuiz

namespace AdaptiveQuiz

/-- C17 (the claim at a concrete input): the partition holds a hard
question, a question whose difficulty is not a key of `DIFFICULTY_MAP` and
five easy questions, in this order.  Every comparison of neighbours is `NaN`
or zero, the sort leaves the array as it is, and at ability 1 the draw 0
returns the hard question, than which the five easy questions are strictly
better. -/
theorem legacy_selectNextQuestion_off_table :
    partitionOf (availableOf offTableCatalogue []) [] = offTableCatalogue ∧
    Legacy.selectNextQuestion Legacy.keepsOrder offTableCatalogue [] 1 [] 0 =
      some (hardQuestion "h1") ∧
    ((partitionOf (availableOf offTableCatalogue []) []).filter
      (fun q => decide (Legacy.strictlyBetter 1 q (hardQuestion "h1")))).length = 5 ∧
    ¬ ((partitionOf (availableOf offTableCatalogue []) []).filter
      (fun q => decide (Legacy.strictlyBetter 1 q (hardQuestion "h1")))).length < 5 := by
  decide!

/-- C17, amended: in the legacy selector, on whatever engine, when the chosen
partition is non-empty and its questions carry labels of `DIFFICULTY_MAP`, a
draw in `[0, 1)` returns a question of the partition than which fewer than
five questions of the partition are strictly better, in the order: rank closer
to the ability first, the lower rank first among equally close ones. -/
theorem legacy_selectNextQuestion_top_five (engineSort : Legacy.EngineSort)
    (cands : List Question) (excl : List String)
    (a : ℚ) (past : List String) (random : ℚ) (h0 : 0 ≤ random) (h1 : random < 1)
    (hne : partitionOf (availableOf cands excl) past ≠ [])
    (hlab : ∀ q ∈ partitionOf (availableOf cands excl) past, q.difficulty ∈ difficultyOrder) :
    ∃ r, Legacy.selectNextQuestion engineSort cands excl a past random = some r ∧
      r ∈ partitionOf (availableOf cands excl) past ∧
      ((partitionOf (availableOf cands excl) past).filter
        (fun q => decide (Legacy.strictlyBetter a q r))).length < 5 := by
  have hav : availableOf cands excl ≠ [] := by
    obtain ⟨q, hq⟩ := List.exists_mem_of_ne_nil _ hne
    exact List.ne_nil_of_mem (partitionOf_subset hq)
  obtain ⟨k, r, hk5, hr, hsel⟩ :=
    legacy_selectNextQuestion_spec engineSort cands excl a past h0 h1 hav hlab
  have hperm := legacy_sortPool_perm engineSort a (partitionOf (availableOf cands excl) past) hlab
  have hrmem : r ∈ partitionOf (availableOf cands excl) past :=
    hperm.mem_iff.mp (List.getElem?_mem hr)
  refine ⟨r, hsel, hrmem, ?_⟩
  have hcount := length_filter_lt_le (Legacy.sortKey a) _
    (legacy_sortPool_pairwise engineSort a _ hlab) k r hr
  have hcongr :
      (Legacy.sortPool engineSort a (partitionOf (availableOf cands excl) past)).filter
        (fun q => decide (Legacy.strictlyBetter a q r)) =
      (Legacy.sortPool engineSort a (partitionOf (availableOf cands excl) past)).filter
        (fun q => decide (Legacy.sortKey a q < Legacy.sortKey a r)) := by
    apply List.filter_congr
    intro q hq
    have hq' := hlab q (hperm.mem_iff.mp hq)
    exact decide_eq_decide.mpr (legacy_strictlyBetter_iff hq' (hlab r hrmem))
  have hlen := (hperm.filter (fun q => decide (Legacy.strictlyBetter a q r))).length_eq
  rw [← hlen, hcongr]
  omega

/-- Ability 1 on two hard, two medium and three easy questions: the draw 7/8
returns the fifth of the sorted pool, the second medium question, than which
the three easy questions are strictly better; five questions are strictly
better than the first hard question, which is not returned. -/
theorem legacy_selectNextQuestion_top_five_witness :
    ((0 : ℚ) ≤ 7 / 8 ∧ (7 / 8 : ℚ) < 1) ∧
    partitionOf (availableOf sevenMixed []) [] = sevenMixed ∧
    Legacy.selectNextQuestion Legacy.keepsOrder sevenMixed [] 1 [] (7 / 8) =
      some (mediumQuestion "m2") ∧
    ((partitionOf (availableOf sevenMixed []) []).filter
      (fun q => decide (Legacy.strictlyBetter 1 q (mediumQuestion "m2")))).length = 3 ∧
    ((partitionOf (availableOf sevenMixed []) []).filter
      (fun q => decide (Legacy.strictlyBetter 1 q (hardQuestion "h1")))).length = 5 ∧
    ∃ r, Legacy.selectNextQuestion Legacy.keepsOrder sevenMixed [] 1 [] (7 / 8) = some r ∧
      r ∈ partitionOf (availableOf sevenMixed []) [] ∧
      ((partitionOf (availableOf sevenMixed []) []).filter
        (fun q => decide (Legacy.strictlyBetter 1 q r))).length < 5 :=
  ⟨⟨by norm_num, by norm_num⟩, by decide, by decide!, by decide!, by decide!,
    legacy_selectNextQuestion_top_five Legacy.keepsOrder sevenMixed [] 1 [] (7 / 8)
      (by norm_num) (by norm_num) (by decide) (by decide)⟩

end AdaptiveQuiz
